import Mathlib

/-!
Verification development for the aegis-core PII detection engine
(package scanner / redactor / restorer).

Modelling conventions
* Go strings are modelled as `List Char` (one list element per code unit);
  byte offsets become list positions.  The scanner layer is additionally
  polymorphic in the alphabet `α`, so that the same definitions cover the
  byte-level (`α := Nat`) and char-level views.
* Go's `text[a:b]` slicing is `seg`.
* Go maps used by the redactor's `Counter` are association lists with
  insert-at-front semantics (`alookup` finds the newest binding).
* `norm.NFC.String` (external golang.org/x/text library) is an abstract
  normalization function passed as a parameter `nfc`.
* `regexp.Regexp` (external) is abstract: a `RegexScanner` carries an
  abstract index finder `find` standing for `FindAllStringIndex` (or, for
  `extractGroup > 0`, the group-extracted pairs of
  `FindAllStringSubmatchIndex`); both Go paths then take the substring at the
  returned pair and run the optional validator, which is what `regexScan`
  does.
* Fields of no algorithmic significance are kept as data: `score`
  (float64 in Go, carried but never computed with; modelled as `Rat`) and
  `detector`.  `ProcessingTime` (wall-clock) is omitted.
-/

/-- Entity (internal/scanner/scanner.go): a detected PII span; `start`/`stop`
are half-open offsets into the scanned text (Go fields `Start`/`End`). -/
structure Entity (α : Type) where
  start : Nat
  stop : Nat
  type : List Char
  text : List α
  score : Rat
  detector : List Char
deriving DecidableEq

/-- Go `text[a:b]` on the list model. -/
def seg (text : List α) (a b : Nat) : List α :=
  (text.take b).drop a

/-- RegexScanner (scanner.go): one abstract regex with entity metadata and an
optional post-match validator. -/
structure RegexScanner (α : Type) where
  find : List α → List (Nat × Nat)
  type : List Char
  score : Rat
  validate : Option (List α → Bool)

/-- RegexScanner.Scan: for every index pair reported by the regex engine,
take the matched substring, keep it if the validator (when present) accepts
it, and emit an entity with those offsets. -/
def regexScan (rs : RegexScanner α) (text : List α) : List (Entity α) :=
  (rs.find text).filterMap (fun p =>
    let matched := seg text p.1 p.2
    match rs.validate with
    | some v =>
        if v matched then
          some ⟨p.1, p.2, rs.type, matched, rs.score, "regex".toList⟩
        else none
    | none => some ⟨p.1, p.2, rs.type, matched, rs.score, "regex".toList⟩)

/-- Span length `End - Start` as in Go (int subtraction, may be negative). -/
def spanLen (e : Entity α) : Int :=
  (e.stop : Int) - (e.start : Int)

/-- The sort order of CompositeScanner.Scan: by `Start` ascending, then by
span length descending.  This is the reflexive closure of Go's `less`
function, i.e. `¬ less b a`. -/
def entLE (a b : Entity α) : Prop :=
  a.start < b.start ∨ (a.start = b.start ∧ spanLen b ≤ spanLen a)

instance : DecidableRel (@entLE α) := fun a b => by
  unfold entLE; infer_instance

instance : IsTotal (Entity α) entLE where
  total a b := by
    unfold entLE spanLen
    rcases Nat.lt_trichotomy a.start b.start with h | h | h
    · exact Or.inl (Or.inl h)
    · rcases le_total ((b.stop : Int) - b.start) ((a.stop : Int) - a.start) with h2 | h2
      · exact Or.inl (Or.inr ⟨h, h2⟩)
      · exact Or.inr (Or.inr ⟨h.symm, h2⟩)
    · exact Or.inr (Or.inl h)

instance : IsTrans (Entity α) entLE where
  trans a b c hab hbc := by
    unfold entLE spanLen at *
    rcases hab with h1 | ⟨h1, h1'⟩ <;> rcases hbc with h2 | ⟨h2, h2'⟩
    · exact Or.inl (h1.trans h2)
    · exact Or.inl (h2 ▸ h1)
    · exact Or.inl (h1 ▸ h2)
    · exact Or.inr ⟨h1.trans h2, le_trans h2' h1'⟩

/-- The dedup sweep of CompositeScanner.Scan: drop any entity whose `Start`
is below the running `lastEnd` (which begins at `-1`), otherwise accept it
and raise `lastEnd` to its `End` when larger. -/
def dedupe : List (Entity α) → Int → List (Entity α)
  | [], _ => []
  | e :: rest, lastEnd =>
    if (e.start : Int) < lastEnd then dedupe rest lastEnd
    else e :: dedupe rest (max lastEnd (e.stop : Int))

/-- CompositeScanner.Scan: NFC-normalize, run every child scanner, sort by
(start asc, length desc), sweep out overlaps, then filter by the allowlist
(which matches each entity's text) when the allowlist is non-empty. -/
def compositeScan (nfc : List α → List α) (scanners : List (List α → List (Entity α)))
    (allowlist : List (List α → Bool)) (text : List α) : List (Entity α) :=
  let t := nfc text
  let all := (scanners.map (fun s => s t)).flatten
  let sorted := List.insertionSort entLE all
  let deduped := dedupe sorted (-1)
  if allowlist.isEmpty then deduped
  else deduped.filter (fun e => !(allowlist.any (fun p => p e.text)))

/-- Two half-open Nat ranges do not intersect. -/
def SpansDisjoint (a b : Entity α) : Prop :=
  min a.stop b.stop ≤ max a.start b.start

instance : DecidableRel (@SpansDisjoint α) := fun a b => by
  unfold SpansDisjoint; infer_instance

/-- Sanity: disjointness matches pointwise non-membership of the ranges. -/
theorem spansDisjoint_iff (a b : Entity α) :
    SpansDisjoint a b ↔ ∀ i, ¬ (a.start ≤ i ∧ i < a.stop ∧ b.start ≤ i ∧ i < b.stop) := by
  constructor
  · intro h i ⟨h1, h2, h3, h4⟩
    exact absurd (lt_min h2 h4) (not_lt.mpr (le_trans h (max_le h1 h3)))
  · intro h
    by_contra hlt
    unfold SpansDisjoint at hlt
    push_neg at hlt
    exact h (max a.start b.start)
      ⟨le_max_left _ _, lt_of_lt_of_le hlt (min_le_left _ _),
       le_max_right _ _, lt_of_lt_of_le hlt (min_le_right _ _)⟩

/-- Fuel-driven worker for decimal printing.  The fuel keeps the recursion
structural (hence kernel-computable); `natDigits` always supplies enough. -/
def natDigitsAux : Nat → Nat → List Char
  | 0, _ => []
  | fuel + 1, n =>
    if n < 10 then [Char.ofNat (48 + n)]
    else natDigitsAux fuel (n / 10) ++ [Char.ofNat (48 + n % 10)]

/-- Decimal digits of `n`, as produced by `fmt.Sprintf("%d", n)` for `n ≥ 0`. -/
def natDigits (n : Nat) : List Char := natDigitsAux (n + 1) n

/-- The fuel does not matter as long as it exceeds the argument. -/
theorem natDigitsAux_irrel : ∀ {f1 : Nat} {n : Nat} (f2 : Nat), n < f1 → n < f2 →
    natDigitsAux f1 n = natDigitsAux f2 n := by
  intro f1
  induction f1 with
  | zero =>
    intro n f2 h1 _
    exact absurd h1 (Nat.not_lt_zero n)
  | succ f1 ih =>
    intro n f2 h1 h2
    cases f2 with
    | zero => exact absurd h2 (Nat.not_lt_zero n)
    | succ f2 =>
      simp only [natDigitsAux]
      by_cases h10 : n < 10
      · rw [if_pos h10, if_pos h10]
      · rw [if_neg h10, if_neg h10]
        have hd : n / 10 < n := Nat.div_lt_self (by omega) (by omega)
        rw [ih f2 (by omega) (by omega)]

/-- The defining recurrence of decimal printing. -/
theorem natDigits_eq (n : Nat) : natDigits n =
    if n < 10 then [Char.ofNat (48 + n)]
    else natDigits (n / 10) ++ [Char.ofNat (48 + n % 10)] := by
  show natDigitsAux (n + 1) n = _
  simp only [natDigitsAux]
  by_cases h10 : n < 10
  · rw [if_pos h10, if_pos h10]
  · rw [if_neg h10, if_neg h10]
    have hd : n / 10 < n := Nat.div_lt_self (by omega) (by omega)
    rw [natDigitsAux_irrel (n / 10 + 1) (by omega) (by omega)]
    rfl

/-- The placeholder token `fmt.Sprintf("[%s_%d]", entityType, n)`. -/
def tokenOf (ty : List Char) (n : Nat) : List Char :=
  '[' :: ty ++ '_' :: natDigits n ++ [']']

/-- Association-list lookup (Go map read; newest binding first). -/
def alookup : List (List Char × β) → List Char → Option β
  | [], _ => none
  | (k, v) :: rest, key => if k = key then some v else alookup rest key

/-- Counter (internal/redactor/counter.go): per-type counts plus the
original-text → token memo. -/
structure CState where
  counts : List (List Char × Nat)
  seen : List (List Char × List Char)

/-- Counter.Next: return the memoized token when this exact original text was
seen before; otherwise bump the per-type count and allocate `[TYPE_N]`. -/
def counterNext (c : CState) (ty txt : List Char) : List Char × CState :=
  match alookup c.seen txt with
  | some tok => (tok, c)
  | none =>
    let n := (alookup c.counts ty).getD 0 + 1
    let tok := tokenOf ty n
    (tok, ⟨(ty, n) :: c.counts, (txt, tok) :: c.seen⟩)

/-- The forward pass of Redact: assign a token to every entity in order,
threading the Counter state. -/
def assignTokens (c : CState) : List (Entity Char) → List (Entity Char × List Char) × CState
  | [] => ([], c)
  | e :: rest =>
    let p := counterNext c e.type e.text
    let r := assignTokens p.2 rest
    ((e, p.1) :: r.1, r.2)

/-- Mapping (internal/redactor/mapping.go). -/
structure Mapping where
  token : List Char
  original : List Char
  type : List Char
deriving DecidableEq

/-- One splice of the backward pass: `buf[:start] + token + buf[end:]`. -/
def spliceStep (buf : List Char) (a b : Nat) (tok : List Char) : List Char :=
  buf.take a ++ tok ++ buf.drop b

/-- Mapping deduplication by token, keeping the first occurrence (the `seen`
map loop at the end of Redact). -/
def dedupMappings : List Mapping → List (List Char) → List Mapping
  | [], _ => []
  | m :: rest, seen =>
    if m.token ∈ seen then dedupMappings rest seen
    else m :: dedupMappings rest (m.token :: seen)

/-- Redact's defensive sort of the candidate list by `Start` ascending. -/
def startLE (a b : Entity Char) : Prop := a.start ≤ b.start

instance : DecidableRel startLE := fun a b => by
  unfold startLE; infer_instance

instance : IsTotal (Entity Char) startLE where
  total a b := Nat.le_total a.start b.start

instance : IsTrans (Entity Char) startLE where
  trans _ _ _ h1 h2 := Nat.le_trans h1 h2

/-- RedactResult (internal/redactor/redactor.go), minus the wall-clock
`ProcessingTime` field. -/
structure RedactResult where
  originalText : List Char
  sanitizedText : List Char
  entities : List (Entity Char)
  mappings : List Mapping
deriving DecidableEq

/-- Redact: empty candidate list returns the text unchanged; otherwise sort
by start, assign tokens in reading order, splice the tokens in reverse order
(collecting mappings last-entity-first), and deduplicate the mappings. -/
def redact (text : List Char) (entities : List (Entity Char)) : RedactResult :=
  if entities = [] then ⟨text, text, entities, []⟩
  else
    let sorted := List.insertionSort startLE entities
    let tags := (assignTokens ⟨[], []⟩ sorted).1
    let final := tags.reverse.foldl
      (fun (acc : List Char × List Mapping) t =>
        (spliceStep acc.1 t.1.start t.1.stop t.2, acc.2 ++ [⟨t.2, t.1.text, t.1.type⟩]))
      (text, [])
    ⟨text, final.1, entities, dedupMappings final.2 []⟩

/-- Fuel-driven worker of strings.ReplaceAll for a non-empty pattern
`o :: old`: scan left to right, replacing each leftmost occurrence and
continuing after the inserted replacement.  The fuel keeps the recursion
structural (hence kernel-computable); `replLoop` always supplies enough. -/
def replLoopAux (o : Char) (old new : List Char) : Nat → List Char → List Char
  | 0, s => s
  | fuel + 1, s =>
    match s with
    | [] => []
    | c :: rest =>
      if (o :: old).isPrefixOf (c :: rest)
      then new ++ replLoopAux o old new fuel (rest.drop old.length)
      else c :: replLoopAux o old new fuel rest

/-- strings.ReplaceAll's scan for a non-empty pattern. -/
def replLoop (o : Char) (old new s : List Char) : List Char :=
  replLoopAux o old new (s.length + 1) s

/-- The fuel does not matter as long as it exceeds the text length. -/
theorem replLoopAux_irrel (o : Char) (old new : List Char) :
    ∀ {f1 : Nat} (f2 : Nat) {s : List Char}, s.length < f1 → s.length < f2 →
    replLoopAux o old new f1 s = replLoopAux o old new f2 s := by
  intro f1
  induction f1 with
  | zero =>
    intro f2 s h1 _
    exact absurd h1 (Nat.not_lt_zero _)
  | succ f1 ih =>
    intro f2 s h1 h2
    cases f2 with
    | zero => exact absurd h2 (Nat.not_lt_zero _)
    | succ f2 =>
      cases s with
      | nil => rfl
      | cons c rest =>
        simp only [replLoopAux]
        by_cases hp : (o :: old).isPrefixOf (c :: rest) = true
        · rw [if_pos hp, if_pos hp]
          have hlen : (rest.drop old.length).length ≤ rest.length := by
            rw [List.length_drop]
            omega
          simp only [List.length_cons] at h1 h2
          rw [ih f2 (by omega) (by omega)]
        · rw [if_neg hp, if_neg hp]
          simp only [List.length_cons] at h1 h2
          rw [ih f2 (by omega) (by omega)]

/-- replLoop on the empty text. -/
theorem replLoop_nil (o : Char) (old new : List Char) : replLoop o old new [] = [] := rfl

/-- The defining recurrence of the ReplaceAll scan. -/
theorem replLoop_cons (o : Char) (old new : List Char) (c : Char) (rest : List Char) :
    replLoop o old new (c :: rest) =
      if (o :: old).isPrefixOf (c :: rest)
      then new ++ replLoop o old new (rest.drop old.length)
      else c :: replLoop o old new rest := by
  show replLoopAux o old new (rest.length + 1 + 1) (c :: rest) = _
  have hstep : replLoopAux o old new (rest.length + 1 + 1) (c :: rest) =
      if (o :: old).isPrefixOf (c :: rest)
      then new ++ replLoopAux o old new (rest.length + 1) (rest.drop old.length)
      else c :: replLoopAux o old new (rest.length + 1) rest := rfl
  rw [hstep]
  by_cases hp : (o :: old).isPrefixOf (c :: rest) = true
  · rw [if_pos hp, if_pos hp]
    have hlen : (rest.drop old.length).length ≤ rest.length := by
      rw [List.length_drop]
      omega
    rw [replLoopAux_irrel o old new ((rest.drop old.length).length + 1) (by omega) (by omega)]
    rfl
  · rw [if_neg hp, if_neg hp]
    rfl

/-- strings.ReplaceAll.  An empty pattern inserts the replacement at every
position (Go's `Replace(s, "", new, -1)` semantics). -/
def replaceAll (s old new : List Char) : List Char :=
  match old with
  | [] => new ++ s.flatMap (fun c => c :: new)
  | o :: old => replLoop o old new s

/-- Restore's sort of the mapping table by token length descending. -/
def mapLenGE (a b : Mapping) : Prop := b.token.length ≤ a.token.length

instance : DecidableRel mapLenGE := fun a b => by
  unfold mapLenGE; infer_instance

instance : IsTotal Mapping mapLenGE where
  total a b := Nat.le_total b.token.length a.token.length

instance : IsTrans Mapping mapLenGE where
  trans _ _ _ h1 h2 := Nat.le_trans h2 h1

/-- Restore (internal/restorer/restorer.go): replace every token by its
original, longest token first. -/
def restore (text : List Char) (mappings : List Mapping) : List Char :=
  if mappings = [] then text
  else (List.insertionSort mapLenGE mappings).foldl
    (fun t m => replaceAll t m.token m.original) text

/-- StreamRestorer state: pre-sorted mappings plus the carry-over buffer. -/
structure SRState where
  mappings : List Mapping
  buffer : List Char
deriving DecidableEq

/-- NewStreamRestorer: sort the mappings longest-token-first, empty buffer. -/
def newStreamRestorer (mappings : List Mapping) : SRState :=
  ⟨List.insertionSort mapLenGE mappings, []⟩

/-- StreamRestorer.replaceMappings: sequential ReplaceAll over the (already
sorted) mapping list. -/
def replaceMappings (st : SRState) (text : List Char) : List Char :=
  st.mappings.foldl (fun t m => replaceAll t m.token m.original) text

/-- Index of the last `[` in the buffer (strings.LastIndex). -/
def lastOpenIdx : List Char → Option Nat
  | [] => none
  | c :: rest =>
    match lastOpenIdx rest with
    | some i => some (i + 1)
    | none => if c = '[' then some 0 else none

/-- StreamRestorer.Process: append the chunk; if the last `[` has no `]`
after it, emit only the text before that `[` and keep the rest buffered;
otherwise emit everything. -/
def srProcess (st : SRState) (chunk : List Char) : List Char × SRState :=
  let buf := st.buffer ++ chunk
  match lastOpenIdx buf with
  | some i =>
    if ']' ∈ buf.drop i then (replaceMappings st buf, ⟨st.mappings, []⟩)
    else (replaceMappings st (buf.take i), ⟨st.mappings, buf.drop i⟩)
  | none => (replaceMappings st buf, ⟨st.mappings, []⟩)

/-- StreamRestorer.Flush: substitute in whatever remains and clear. -/
def srFlush (st : SRState) : List Char × SRState :=
  (replaceMappings st st.buffer, ⟨st.mappings, []⟩)

/-- Feed a whole chunk sequence through Process calls and one final Flush,
concatenating everything emitted. -/
def srRun (st : SRState) : List (List Char) → List Char
  | [] => (srFlush st).1
  | c :: cs =>
    let p := srProcess st c
    p.1 ++ srRun p.2 cs

/-- Substring test (used only to instantiate allowlist patterns in concrete
examples, mirroring what an unanchored regexp match does). -/
def matchSub (pat : List Char) : List Char → Bool
  | [] => pat.isEmpty
  | c :: rest => pat.isPrefixOf (c :: rest) || matchSub pat rest

/-- Every entity accepted by the sweep lies in the input and starts at or
after the initial `lastEnd`. -/
theorem mem_dedupe {l : List (Entity α)} {L : Int} {e : Entity α}
    (h : e ∈ dedupe l L) : e ∈ l ∧ L ≤ (e.start : Int) := by
  induction l generalizing L with
  | nil => cases h
  | cons a rest ih =>
    unfold dedupe at h
    by_cases hc : (a.start : Int) < L
    · simp only [hc, if_true] at h
      exact ⟨List.mem_cons_of_mem _ (ih h).1, (ih h).2⟩
    · simp only [hc, if_false] at h
      rcases List.mem_cons.mp h with rfl | h
      · exact ⟨List.mem_cons_self _ _, not_lt.mp hc⟩
      · have := ih h
        exact ⟨List.mem_cons_of_mem _ this.1, le_trans (le_max_left _ _) this.2⟩

/-- The sweep output is a sublist of its input. -/
theorem dedupe_sublist (l : List (Entity α)) (L : Int) : (dedupe l L).Sublist l := by
  induction l generalizing L with
  | nil => simp [dedupe]
  | cons a rest ih =>
    unfold dedupe
    by_cases hc : (a.start : Int) < L
    · simp only [hc, if_true]
      exact (ih L).cons a
    · simp only [hc, if_false]
      exact (ih _).cons₂ a

/-- Core sweep invariant: on a start-sorted list, the sweep yields a list
that is both start-sorted and pairwise disjoint. -/
theorem dedupe_pairwise {l : List (Entity α)}
    (hs : l.Pairwise (fun a b => a.start ≤ b.start)) (L : Int) :
    (dedupe l L).Pairwise (fun a b => a.start ≤ b.start ∧ SpansDisjoint a b) := by
  induction l generalizing L with
  | nil => simp [dedupe]
  | cons a rest ih =>
    rcases List.pairwise_cons.mp hs with ⟨h1, h2⟩
    unfold dedupe
    by_cases hc : (a.start : Int) < L
    · simp only [hc, if_true]
      exact ih h2 L
    · simp only [hc, if_false]
      refine List.pairwise_cons.mpr ⟨?_, ih h2 _⟩
      intro f hf
      have hm := mem_dedupe hf
      have hstop : (a.stop : Int) ≤ (f.start : Int) :=
        le_trans (le_max_right L _) hm.2
      have hstopN : a.stop ≤ f.start := by exact_mod_cast hstop
      exact ⟨h1 f hm.1, le_trans (min_le_left _ _) (le_trans hstopN (le_max_right _ _))⟩

/-- entLE is at least as strong as start-sortedness. -/
theorem entLE_start {a b : Entity α} (h : entLE a b) : a.start ≤ b.start := by
  rcases h with h | ⟨h, _⟩
  · exact Nat.le_of_lt h
  · exact Nat.le_of_eq h

/-- Scan's output is start-sorted and pairwise disjoint (shared helper). -/
theorem scan_pairwise (nfc : List α → List α)
    (scanners : List (List α → List (Entity α))) (allowlist : List (List α → Bool))
    (text : List α) :
    (compositeScan nfc scanners allowlist text).Pairwise
      (fun a b => a.start ≤ b.start ∧ SpansDisjoint a b) := by
  unfold compositeScan
  have hsorted : (List.insertionSort entLE
      ((scanners.map (fun s => s (nfc text))).flatten)).Pairwise
      (fun a b : Entity α => a.start ≤ b.start) :=
    (List.sorted_insertionSort entLE _).imp entLE_start
  have hdd := dedupe_pairwise hsorted (-1)
  by_cases hal : allowlist.isEmpty
  · simpa [hal] using hdd
  · simpa [hal] using List.Pairwise.sublist (List.filter_sublist _) hdd

/-- Claim C3: every two distinct entities in CompositeScanner.Scan's output
have non-intersecting half-open ranges, and the output is ordered by Start
ascending, for every input text and every configuration of child scanners
and allowlist. -/
theorem compositeScan_nonoverlap_sorted (nfc : List α → List α)
    (scanners : List (List α → List (Entity α))) (allowlist : List (List α → Bool))
    (text : List α) :
    (compositeScan nfc scanners allowlist text).Pairwise
      (fun a b => a.start ≤ b.start ∧ SpansDisjoint a b) :=
  scan_pairwise nfc scanners allowlist text

/-- A sweep over `u ++ a :: v` never keeps an entity `b` (distinct from `a`,
absent from `u`) that starts where `a` starts and before `a` ends: by the
time `b` is reached, `lastEnd` has passed its start. -/
theorem dedupe_excl {a b : Entity α} (hne : b ≠ a) (hstart : a.start = b.start)
    (hlt : b.start < a.stop) :
    ∀ (u v : List (Entity α)) (L : Int), b ∉ u → b ∉ dedupe (u ++ a :: v) L := by
  intro u
  induction u with
  | nil =>
    intro v L _
    simp only [List.nil_append]
    unfold dedupe
    by_cases hc : (a.start : Int) < L
    · simp only [hc, if_true]
      intro hb
      have := (mem_dedupe hb).2
      omega
    · simp only [hc, if_false]
      intro hb
      rcases List.mem_cons.mp hb with rfl | hb
      · exact hne rfl
      · have h2 := (mem_dedupe hb).2
        have h3 : (a.stop : Int) ≤ (b.start : Int) := le_trans (le_max_right L _) h2
        omega
  | cons c u ih =>
    intro v L hbu
    have hbc : b ≠ c := fun h => hbu (h ▸ List.mem_cons_self c u)
    have hbu' : b ∉ u := fun h => hbu (List.mem_cons_of_mem c h)
    simp only [List.cons_append]
    unfold dedupe
    by_cases hc : (c.start : Int) < L
    · simp only [hc, if_true]
      exact ih v L hbu'
    · simp only [hc, if_false]
      intro hb
      rcases List.mem_cons.mp hb with rfl | hb
      · exact hbc rfl
      · exact ih v _ hbu' hb

/-- In a pairwise-`R` list, any element `a` with `¬ R b a` can be split off
with no `b` before it. -/
theorem pairwise_split {R : β → β → Prop} {l : List β} {a b : β}
    (hp : l.Pairwise R) (hmem : a ∈ l) (hra : ¬ R b a) :
    ∃ u v, l = u ++ a :: v ∧ b ∉ u := by
  induction l with
  | nil => cases hmem
  | cons x t ih =>
    rcases List.pairwise_cons.mp hp with ⟨h1, h2⟩
    by_cases hxa : x = a
    · subst hxa
      exact ⟨[], t, rfl, List.not_mem_nil b⟩
    · have hat : a ∈ t := (List.mem_cons.mp hmem).resolve_left (fun h => hxa h.symm)
      rcases ih h2 hat with ⟨u, v, rfl, hbu⟩
      refine ⟨x :: u, v, rfl, ?_⟩
      intro hbm
      rcases List.mem_cons.mp hbm with rfl | hbm
      · exact hra (h1 a hat)
      · exact hbu hbm

/-- Membership in Scan's output implies membership in the sweep output. -/
theorem compositeScan_mem {nfc : List α → List α}
    {scanners : List (List α → List (Entity α))} {allowlist : List (List α → Bool)}
    {text : List α} {e : Entity α} (h : e ∈ compositeScan nfc scanners allowlist text) :
    e ∈ dedupe (List.insertionSort entLE
      ((scanners.map (fun s => s (nfc text))).flatten)) (-1) := by
  unfold compositeScan at h
  by_cases hal : allowlist.isEmpty
  · simpa [hal] using h
  · simp only [hal, if_false] at h
    exact (List.mem_filter.mp h).1

/-- Claim C4 (amended): when two child-scanner candidates overlap and start
at the same offset with different span lengths, the shorter one never
appears in CompositeScanner.Scan's output.  (The longer one is kept only in
the absence of an earlier overlapping candidate and of an allowlist match;
see `c4_counterexample`.) -/
theorem compositeScan_shorter_dropped (nfc : List α → List α)
    (scanners : List (List α → List (Entity α))) (allowlist : List (List α → Bool))
    (text : List α) (a b : Entity α)
    (ha : a ∈ (scanners.map (fun s => s (nfc text))).flatten)
    (_hb : b ∈ (scanners.map (fun s => s (nfc text))).flatten)
    (hstart : a.start = b.start) (hov : ¬ SpansDisjoint a b)
    (hlen : spanLen b < spanLen a) :
    b ∉ compositeScan nfc scanners allowlist text := by
  intro hmem
  have hdd := compositeScan_mem hmem
  set all := (scanners.map (fun s => s (nfc text))).flatten with hall
  have hsorted : (List.insertionSort entLE all).Pairwise entLE :=
    List.sorted_insertionSort entLE all
  have ha' : a ∈ List.insertionSort entLE all :=
    (List.perm_insertionSort entLE all).mem_iff.mpr ha
  have hra : ¬ entLE b a := by
    intro hle
    rcases hle with h | ⟨h, h'⟩
    · omega
    · exact absurd hlen (not_lt.mpr h')
  rcases pairwise_split hsorted ha' hra with ⟨u, v, hsplit, hbu⟩
  have hne : b ≠ a := by
    intro h
    rw [h] at hlen
    exact lt_irrefl _ hlen
  have hlt : b.start < a.stop := by
    unfold SpansDisjoint at hov
    push_neg at hov
    calc b.start ≤ max a.start b.start := le_max_right _ _
    _ < min a.stop b.stop := hov
    _ ≤ a.stop := min_le_left _ _
  rw [hsplit] at hdd
  exact dedupe_excl hne hstart hlt u v (-1) hbu hdd

/-- Concrete candidates for the C4 analysis (spec's `test`/`test case`
example plus a third interfering candidate). -/
def c4Short : Entity Char := ⟨10, 14, "TEST".toList, "test".toList, 1, "regex".toList⟩

/-- The longer candidate at the same start offset. -/
def c4Long : Entity Char := ⟨10, 19, "TEST".toList, "test case".toList, 1, "regex".toList⟩

/-- A candidate overlapping both from an earlier offset. -/
def c4Big : Entity Char := ⟨0, 100, "BIG".toList, "big".toList, 1, "regex".toList⟩

/-- Claim C4, counterexample to the claim as stated: `c4Long` and `c4Short`
are child-scanner candidates that overlap at the same start with different
lengths, yet the output does not contain the longer one either — a third
candidate overlapping from an earlier offset evicts both. -/
theorem c4_counterexample :
    c4Long.start = c4Short.start ∧ ¬ SpansDisjoint c4Long c4Short ∧
    spanLen c4Short < spanLen c4Long ∧
    c4Long ∈ (([fun _ => [c4Big], fun _ => [c4Short, c4Long]].map
      (fun s => s (id "irrelevant".toList))).flatten) ∧
    c4Long ∉ compositeScan id [fun _ => [c4Big], fun _ => [c4Short, c4Long]]
      [] "irrelevant".toList := by
  decide

/-- Claim C4, witness for the amended theorem: with only the spec example's
two candidates, the shorter is dropped (by `compositeScan_shorter_dropped`)
and the output is exactly the longer one. -/
theorem c4_witness :
    c4Short ∉ compositeScan id [fun _ => [c4Short], fun _ => [c4Long]]
      [] "irrelevant".toList ∧
    compositeScan id [fun _ => [c4Short], fun _ => [c4Long]] []
      "irrelevant".toList = [c4Long] :=
  ⟨compositeScan_shorter_dropped id _ _ _ c4Long c4Short (by decide) (by decide)
      (by decide) (by decide) (by decide),
   by decide⟩

/-- Provenance: Scan returns only entities that some child scanner produced
on the normalized text, verbatim. -/
theorem compositeScan_subset_children {nfc : List α → List α}
    {scanners : List (List α → List (Entity α))} {allowlist : List (List α → Bool)}
    {text : List α} {e : Entity α} (h : e ∈ compositeScan nfc scanners allowlist text) :
    e ∈ (scanners.map (fun s => s (nfc text))).flatten := by
  have h1 := (mem_dedupe (compositeScan_mem h)).1
  exact (List.perm_insertionSort entLE _).mem_iff.mp h1

/-- Every entity built by RegexScanner.Scan records one of the regex
engine's index pairs and the substring of the scanned text at that pair. -/
theorem regexScan_spec {rs : RegexScanner α} {t : List α} {e : Entity α}
    (h : e ∈ regexScan rs t) :
    ∃ p ∈ rs.find t, e.start = p.1 ∧ e.stop = p.2 ∧ e.text = seg t p.1 p.2 := by
  unfold regexScan at h
  rcases List.mem_filterMap.mp h with ⟨p, hp, hsome⟩
  refine ⟨p, hp, ?_⟩
  rcases hv : rs.validate with _ | v
  · rw [hv] at hsome
    simp only at hsome
    obtain rfl := Option.some_inj.mp hsome
    exact ⟨rfl, rfl, rfl⟩
  · rw [hv] at hsome
    simp only at hsome
    by_cases hok : v (seg t p.1 p.2) = true
    · rw [if_pos hok] at hsome
      obtain rfl := Option.some_inj.mp hsome
      exact ⟨rfl, rfl, rfl⟩
    · rw [if_neg hok] at hsome
      cases hsome

/-- Claim C5: for every input (multi-byte included — the alphabet `α` covers
the byte-level model) and RegexScanner children whose regex engine reports
in-bounds index pairs, every entity in CompositeScanner.Scan's output
satisfies `normalizedText[start:stop] == text`, offsets being relative to
the NFC-normalized text computed before any detector ran. -/
theorem compositeScan_offset_integrity (nfc : List α → List α)
    (rss : List (RegexScanner α)) (allowlist : List (List α → Bool)) (text : List α)
    (hbound : ∀ rs ∈ rss, ∀ p ∈ rs.find (nfc text), p.1 ≤ p.2 ∧ p.2 ≤ (nfc text).length) :
    ∀ e ∈ compositeScan nfc (rss.map (fun rs => regexScan rs)) allowlist text,
      seg (nfc text) e.start e.stop = e.text ∧ e.start ≤ e.stop ∧
      e.stop ≤ (nfc text).length := by
  intro e he
  have h1 := compositeScan_subset_children he
  rcases List.mem_flatten.mp h1 with ⟨l, hl, hel⟩
  rcases List.mem_map.mp hl with ⟨s, hs, rfl⟩
  rcases List.mem_map.mp hs with ⟨rs, hrs, rfl⟩
  rcases regexScan_spec hel with ⟨p, hp, h2, h3, h4⟩
  rcases hbound rs hrs p hp with ⟨hb1, hb2⟩
  exact ⟨by rw [h2, h3, h4], by rw [h2, h3]; exact hb1, by rw [h3]; exact hb2⟩

/-- UTF-8 bytes of "Herr Müller" (ü is the two bytes 195, 188). -/
def c5Bytes : List Nat := [72, 101, 114, 114, 32, 77, 195, 188, 108, 108, 101, 114]

/-- A byte-level regex scanner reporting the span of "Müller". -/
def c5Rs : RegexScanner Nat := ⟨fun _ => [(5, 12)], "PERSON".toList, 1, none⟩

/-- The entity that `c5Rs` produces. -/
def c5Ent : Entity Nat :=
  ⟨5, 12, "PERSON".toList, [77, 195, 188, 108, 108, 101, 114], 1, "regex".toList⟩

/-- Claim C5, witness: on the multi-byte input "Herr Müller" the produced
entity is in Scan's output and `compositeScan_offset_integrity` applies. -/
theorem c5_witness :
    (∀ rs ∈ [c5Rs], ∀ p ∈ rs.find (id c5Bytes), p.1 ≤ p.2 ∧ p.2 ≤ (id c5Bytes).length) ∧
    c5Ent ∈ compositeScan id ([c5Rs].map (fun rs => regexScan rs)) [] c5Bytes ∧
    (seg (id c5Bytes) c5Ent.start c5Ent.stop = c5Ent.text ∧ c5Ent.start ≤ c5Ent.stop ∧
      c5Ent.stop ≤ (id c5Bytes).length) :=
  ⟨by decide, by decide,
   compositeScan_offset_integrity id [c5Rs] [] c5Bytes (by decide) c5Ent (by decide)⟩

/-- Claim C7: no entity whose text matches an allowlist pattern appears in
CompositeScanner.Scan's output, and every sweep survivor matching no
allowlist pattern is kept. -/
theorem compositeScan_allowlist_exclusion (nfc : List α → List α)
    (scanners : List (List α → List (Entity α))) (allowlist : List (List α → Bool))
    (text : List α) :
    (∀ e ∈ compositeScan nfc scanners allowlist text, ∀ p ∈ allowlist, p e.text = false) ∧
    (∀ e ∈ dedupe (List.insertionSort entLE
        ((scanners.map (fun s => s (nfc text))).flatten)) (-1),
      (∀ p ∈ allowlist, p e.text = false) →
        e ∈ compositeScan nfc scanners allowlist text) := by
  constructor
  · intro e he p hp
    by_cases hal : allowlist.isEmpty
    · rw [List.isEmpty_iff] at hal
      subst hal
      cases hp
    · unfold compositeScan at he
      simp only [hal, if_false] at he
      have h2 := (List.mem_filter.mp he).2
      simp only [Bool.not_eq_eq_eq_not, Bool.not_true, List.any_eq_false] at h2
      simpa using h2 p hp
  · intro e he hnone
    unfold compositeScan
    by_cases hal : allowlist.isEmpty
    · simpa [hal] using he
    · simp only [hal, if_false]
      refine List.mem_filter.mpr ⟨he, ?_⟩
      simp only [Bool.not_eq_eq_eq_not, Bool.not_true, List.any_eq_false]
      intro p hp
      simpa using hnone p hp

/-- The allowlisted e-mail candidate from the spec's example. -/
def c7Drop : Entity Char :=
  ⟨5, 21, "EMAIL".toList, "test@example.com".toList, 1, "regex".toList⟩

/-- The non-allowlisted e-mail candidate from the spec's example. -/
def c7Keep : Entity Char :=
  ⟨22, 37, "EMAIL".toList, "real@secret.org".toList, 1, "regex".toList⟩

/-- The concrete document both candidates point into. -/
def c7Text : List Char := "mail test@example.com real@secret.org".toList

/-- The concrete allowlist pattern (unanchored match for `example\.com`). -/
def c7Pattern : List Char → Bool := matchSub "example.com".toList

/-- Claim C7, witness: allowlisting `example\.com` drops `test@example.com`
(the output is exactly the other candidate) while `real@secret.org`, which
matches no pattern, is kept via `compositeScan_allowlist_exclusion`. -/
theorem c7_witness :
    c7Keep ∈ dedupe (List.insertionSort entLE
      (([fun _ => [c7Drop, c7Keep]].map (fun s => s (id c7Text))).flatten)) (-1) ∧
    (∀ p ∈ [c7Pattern], p c7Keep.text = false) ∧
    c7Keep ∈ compositeScan id [fun _ => [c7Drop, c7Keep]] [c7Pattern] c7Text ∧
    compositeScan id [fun _ => [c7Drop, c7Keep]] [c7Pattern] c7Text = [c7Keep] :=
  ⟨by decide, by decide,
   (compositeScan_allowlist_exclusion id [fun _ => [c7Drop, c7Keep]] [c7Pattern]
      c7Text).2 c7Keep (by decide) (by decide),
   by decide⟩

/-- A UTF-8 continuation byte. -/
def contByte (b : Nat) : Bool := 0x80 ≤ b && b ≤ 0xBF

/-- Modelled from the spec: the repository has no input-encoding check at
all, so UTF-8 validity (Go's `utf8.Valid` semantics: no surrogates, no
overlong encodings, max U+10FFFF) is reconstructed here from the spec's
`InputEncodingError` requirement, to state what the specified merge would
have to test. -/
def validUTF8 : List Nat → Bool
  | [] => true
  | b :: rest =>
    if b ≤ 0x7F then validUTF8 rest
    else if 0xC2 ≤ b ∧ b ≤ 0xDF then
      match rest with
      | c1 :: r => contByte c1 && validUTF8 r
      | [] => false
    else if b = 0xE0 then
      match rest with
      | c1 :: c2 :: r => (0xA0 ≤ c1 && c1 ≤ 0xBF) && contByte c2 && validUTF8 r
      | _ => false
    else if (0xE1 ≤ b ∧ b ≤ 0xEC) ∨ b = 0xEE ∨ b = 0xEF then
      match rest with
      | c1 :: c2 :: r => contByte c1 && contByte c2 && validUTF8 r
      | _ => false
    else if b = 0xED then
      match rest with
      | c1 :: c2 :: r => (0x80 ≤ c1 && c1 ≤ 0x9F) && contByte c2 && validUTF8 r
      | _ => false
    else if b = 0xF0 then
      match rest with
      | c1 :: c2 :: c3 :: r =>
        (0x90 ≤ c1 && c1 ≤ 0xBF) && contByte c2 && contByte c3 && validUTF8 r
      | _ => false
    else if 0xF1 ≤ b ∧ b ≤ 0xF3 then
      match rest with
      | c1 :: c2 :: c3 :: r => contByte c1 && contByte c2 && contByte c3 && validUTF8 r
      | _ => false
    else if b = 0xF4 then
      match rest with
      | c1 :: c2 :: c3 :: r =>
        (0x80 ≤ c1 && c1 ≤ 0x8F) && contByte c2 && contByte c3 && validUTF8 r
      | _ => false
    else false

/-- Modelled from the spec: the error kinds of the merge contract. -/
inductive MergeError where
  | inputEncodingError
deriving DecidableEq

/-- Modelled from the spec: the specified merge fails fast with
`InputEncodingError` on non-UTF-8 input, before normalization, and
otherwise behaves as the code's CompositeScanner.Scan. -/
def mergeSpec (nfc : List Nat → List Nat) (scanners : List (List Nat → List (Entity Nat)))
    (allowlist : List (List Nat → Bool)) (input : List Nat) :
    Except MergeError (List (Entity Nat)) :=
  if validUTF8 input then Except.ok (compositeScan nfc scanners allowlist input)
  else Except.error MergeError.inputEncodingError

/-- Claim C8 (amended): CompositeScanner.Scan performs no encoding check.
On every input that is not valid UTF-8 the spec-modelled merge fails with
`InputEncodingError`, but the code's Scan runs the full detector pipeline
anyway and still delivers its ordinary ordered, non-overlapping result. -/
theorem scan_no_encoding_check (nfc : List Nat → List Nat)
    (scanners : List (List Nat → List (Entity Nat))) (allowlist : List (List Nat → Bool))
    (input : List Nat) (hbad : validUTF8 input = false) :
    mergeSpec nfc scanners allowlist input = Except.error MergeError.inputEncodingError ∧
    (compositeScan nfc scanners allowlist input).Pairwise
      (fun a b => a.start ≤ b.start ∧ SpansDisjoint a b) := by
  constructor
  · unfold mergeSpec
    rw [hbad]
    rfl
  · exact scan_pairwise nfc scanners allowlist input

/-- A non-UTF-8 input: 0xFF can never occur in UTF-8. -/
def c8Bad : List Nat := [72, 255]

/-- A byte-level scanner that reports the first byte of any input. -/
def c8Scanner : List Nat → List (Entity Nat) :=
  fun t => [⟨0, 1, "BYTE".toList, seg t 0 1, 1, "regex".toList⟩]

/-- Claim C8, counterexample to the claim as stated: on the invalid input
`c8Bad` the code's Scan does not fail — the detector runs and a non-empty
result is returned — while the spec-modelled merge raises
`InputEncodingError`. -/
theorem c8_counterexample :
    validUTF8 c8Bad = false ∧
    compositeScan id [c8Scanner] [] c8Bad =
      [⟨0, 1, "BYTE".toList, [72], 1, "regex".toList⟩] ∧
    compositeScan id [c8Scanner] [] c8Bad ≠ [] ∧
    mergeSpec id [c8Scanner] [] c8Bad = Except.error MergeError.inputEncodingError :=
  ⟨by decide, by decide, by decide, rfl⟩

/-- Claim C8, witness for the amended theorem at the concrete invalid
input. -/
theorem c8_witness :
    validUTF8 c8Bad = false ∧
    (mergeSpec id [c8Scanner] [] c8Bad = Except.error MergeError.inputEncodingError ∧
      (compositeScan id [c8Scanner] [] c8Bad).Pairwise
        (fun a b => a.start ≤ b.start ∧ SpansDisjoint a b)) :=
  ⟨by decide, scan_no_encoding_check id [c8Scanner] [] c8Bad (by decide)⟩

/-- Claim C9 (amended): the merge does not validate candidates.  Every
entity in Scan's output is verbatim one of the child scanners' candidates —
offset-invariant violations included — and removals happen only through the
overlap sweep and the allowlist; no error is ever surfaced.  See
`c9_counterexample` for an invalid candidate that is passed through. -/
theorem scan_no_candidate_validation (α : Type) (nfc : List α → List α)
    (scanners : List (List α → List (Entity α))) (allowlist : List (List α → Bool))
    (text : List α) (e : Entity α) (h : e ∈ compositeScan nfc scanners allowlist text) :
    e ∈ (scanners.map (fun s => s (nfc text))).flatten :=
  compositeScan_subset_children h

/-- A candidate violating the offset invariant: it claims bytes 0..3 of
"abcdefghij" but carries the text "ZZZ". -/
def c9Bad : Entity Char := ⟨0, 3, "X".toList, "ZZZ".toList, 1, "regex".toList⟩

/-- The document `c9Bad` pretends to point into. -/
def c9Text : List Char := "abcdefghij".toList

/-- Claim C9, counterexample to the claim as stated: the offending candidate
is not dropped — CompositeScanner.Scan returns it although its text differs
from the normalized text at its offsets. -/
theorem c9_counterexample :
    seg (id c9Text) c9Bad.start c9Bad.stop ≠ c9Bad.text ∧
    compositeScan id [fun _ => [c9Bad]] [] c9Text = [c9Bad] := by
  decide

/-- Claim C9, witness for the amended theorem: the invalid candidate in
Scan's output originates verbatim from its child scanner. -/
theorem c9_witness :
    c9Bad ∈ compositeScan id [fun _ => [c9Bad]] [] c9Text ∧
    c9Bad ∈ (([fun _ => [c9Bad]].map (fun s => s (id c9Text))).flatten) :=
  ⟨by decide,
   scan_no_candidate_validation Char id [fun _ => [c9Bad]] [] c9Text c9Bad (by decide)⟩

/-- A string free of the token delimiter characters. -/
def BFree (s : List Char) : Prop := ∀ c ∈ s, c ≠ '[' ∧ c ≠ ']'

instance : DecidablePred BFree := fun s => by
  unfold BFree; infer_instance

/-- A well-formed token: a single `[`, a delimiter-free interior, a single
closing `]`. -/
def WFTok (t : List Char) : Prop :=
  ∃ mid, t = '[' :: mid ++ [']'] ∧ BFree mid

/-- Every digit character is a `Char.ofNat (48 + d)` with `d < 10`. -/
theorem natDigits_mem {n : Nat} {c : Char} (h : c ∈ natDigits n) :
    ∃ d, d < 10 ∧ c = Char.ofNat (48 + d) := by
  induction n using Nat.strong_induction_on with
  | _ n ih =>
    rw [natDigits_eq] at h
    by_cases h10 : n < 10
    · rw [if_pos h10] at h
      rcases List.mem_singleton.mp h with rfl
      exact ⟨n, h10, rfl⟩
    · rw [if_neg h10] at h
      rcases List.mem_append.mp h with h | h
      · exact ih (n / 10) (Nat.div_lt_self (by omega) (by omega)) h
      · rcases List.mem_singleton.mp h with rfl
        exact ⟨n % 10, Nat.mod_lt n (by omega), rfl⟩

/-- Digit characters are none of the delimiters nor the underscore. -/
theorem digit_char_clean : ∀ d, d < 10 →
    Char.ofNat (48 + d) ≠ '[' ∧ Char.ofNat (48 + d) ≠ ']' ∧ Char.ofNat (48 + d) ≠ '_' := by
  decide

/-- Characters of `natDigits` avoid the delimiters and the underscore. -/
theorem natDigits_clean {n : Nat} {c : Char} (h : c ∈ natDigits n) :
    c ≠ '[' ∧ c ≠ ']' ∧ c ≠ '_' := by
  rcases natDigits_mem h with ⟨d, hd, rfl⟩
  exact digit_char_clean d hd

/-- The digit list is never empty. -/
theorem natDigits_ne_nil (n : Nat) : natDigits n ≠ [] := by
  rw [natDigits_eq]
  by_cases h10 : n < 10
  · rw [if_pos h10]; simp
  · rw [if_neg h10]; simp

/-- Decimal digit characters are injective on their value. -/
theorem digit_char_inj : ∀ d, d < 10 → ∀ e, e < 10 →
    Char.ofNat (48 + d) = Char.ofNat (48 + e) → d = e := by
  decide

/-- Decimal printing is injective. -/
theorem natDigits_inj : ∀ {m n : Nat}, natDigits m = natDigits n → m = n := by
  intro m
  induction m using Nat.strong_induction_on with
  | _ m ih =>
    intro n h
    by_cases hm : m < 10 <;> by_cases hn : n < 10 <;>
      rw [natDigits_eq m, natDigits_eq n] at h
    · rw [if_pos hm, if_pos hn] at h
      exact digit_char_inj m hm n hn (List.cons_eq_cons.mp h).1
    · rw [if_pos hm, if_neg hn] at h
      have := congrArg List.length h
      simp only [List.length_singleton, List.length_append] at this
      have h1 : natDigits (n / 10) ≠ [] := natDigits_ne_nil _
      cases hx : natDigits (n / 10) with
      | nil => exact absurd hx h1
      | cons a l => rw [hx] at this; simp at this
    · rw [if_neg hm, if_pos hn] at h
      have := congrArg List.length h
      simp only [List.length_singleton, List.length_append] at this
      have h1 : natDigits (m / 10) ≠ [] := natDigits_ne_nil _
      cases hx : natDigits (m / 10) with
      | nil => exact absurd hx h1
      | cons a l => rw [hx] at this; simp at this
    · rw [if_neg hm, if_neg hn] at h
      have h2 := congrArg List.reverse h
      simp only [List.reverse_append, List.reverse_cons, List.reverse_nil,
        List.nil_append, List.singleton_append] at h2
      rcases List.cons_eq_cons.mp h2 with ⟨hhead, htail⟩
      have htails : natDigits (m / 10) = natDigits (n / 10) :=
        List.reverse_injective htail
      have hdiv : m / 10 = n / 10 :=
        ih (m / 10) (Nat.div_lt_self (by omega) (by omega)) htails
      have hmod : m % 10 = n % 10 :=
        digit_char_inj _ (Nat.mod_lt m (by omega)) _ (Nat.mod_lt n (by omega)) hhead
      omega

/-- First-occurrence splitting: a list with a distinguished first `x` splits
uniquely. -/
theorem split_first {x : Char} : ∀ (a1 : List Char) {b1 : List Char} (a2 : List Char)
    {b2 : List Char}, x ∉ a1 → x ∉ a2 → a1 ++ x :: b1 = a2 ++ x :: b2 →
    a1 = a2 ∧ b1 = b2 := by
  intro a1
  induction a1 with
  | nil =>
    intro b1 a2 b2 _ hx2 h
    cases a2 with
    | nil => simpa using h
    | cons c a2 =>
      simp only [List.nil_append, List.cons_append, List.cons_eq_cons] at h
      exact absurd (h.1 ▸ List.mem_cons_self c a2) hx2
  | cons c a1 ih =>
    intro b1 a2 b2 hx1 hx2 h
    cases a2 with
    | nil =>
      simp only [List.cons_append, List.nil_append, List.cons_eq_cons] at h
      exact absurd (h.1.symm ▸ List.mem_cons_self c a1) hx1
    | cons d a2 =>
      simp only [List.cons_append, List.cons_eq_cons] at h
      have hm1 : x ∉ a1 := fun hm => hx1 (List.mem_cons_of_mem c hm)
      have hm2 : x ∉ a2 := fun hm => hx2 (List.mem_cons_of_mem d hm)
      rcases ih a2 hm1 hm2 h.2 with ⟨rfl, rfl⟩
      exact ⟨by rw [h.1], rfl⟩

/-- Tokens are uniquely parsed: equal tokens come from equal type labels and
equal counter values. -/
theorem tokenOf_inj {ty1 ty2 : List Char} {n1 n2 : Nat}
    (h : tokenOf ty1 n1 = tokenOf ty2 n2) : ty1 = ty2 ∧ n1 = n2 := by
  unfold tokenOf at h
  have h1 : ty1 ++ '_' :: natDigits n1 ++ [']'] = ty2 ++ '_' :: natDigits n2 ++ [']'] :=
    (List.cons_eq_cons.mp h).2
  have h2 : (ty1 ++ '_' :: natDigits n1) ++ [']'] = (ty2 ++ '_' :: natDigits n2) ++ [']'] := by
    rw [List.append_assoc, List.append_assoc]
    simpa [List.cons_append] using h1
  have h3 : ty1 ++ '_' :: natDigits n1 = ty2 ++ '_' :: natDigits n2 :=
    List.append_cancel_right h2
  have h4 : (natDigits n1).reverse ++ '_' :: ty1.reverse =
      (natDigits n2).reverse ++ '_' :: ty2.reverse := by
    have h5 := congrArg List.reverse h3
    simpa [List.reverse_append, List.append_assoc] using h5
  have hx1 : '_' ∉ (natDigits n1).reverse := by
    intro hm
    exact (natDigits_clean (List.mem_reverse.mp hm)).2.2 rfl
  have hx2 : '_' ∉ (natDigits n2).reverse := by
    intro hm
    exact (natDigits_clean (List.mem_reverse.mp hm)).2.2 rfl
  rcases split_first _ _ hx1 hx2 h4 with ⟨hd, ht⟩
  exact ⟨List.reverse_injective ht,
    natDigits_inj (List.reverse_injective hd)⟩

/-- Tokens built from a delimiter-free type label are well formed. -/
theorem tokenOf_WF {ty : List Char} (h : BFree ty) (n : Nat) : WFTok (tokenOf ty n) := by
  refine ⟨ty ++ '_' :: natDigits n, by simp [tokenOf], ?_⟩
  intro c hc
  rcases List.mem_append.mp hc with hc | hc
  · exact h c hc
  · rcases List.mem_cons.mp hc with rfl | hc
    · exact ⟨by decide, by decide⟩
    · exact ⟨(natDigits_clean hc).1, (natDigits_clean hc).2.1⟩

/-- Lookup after an insert-at-front map write. -/
theorem alookup_mem {l : List (List Char × β)} {k : List Char} {v : β}
    (hk : l.Pairwise (fun p q => p.1 ≠ q.1)) (h : (k, v) ∈ l) : alookup l k = some v := by
  induction l with
  | nil => cases h
  | cons p rest ih =>
    obtain ⟨k', v'⟩ := p
    rcases List.pairwise_cons.mp hk with ⟨h1, h2⟩
    rcases List.mem_cons.mp h with he | hm
    · obtain ⟨rfl, rfl⟩ := Prod.mk.inj he.symm
      simp [alookup]
    · unfold alookup
      by_cases he2 : k' = k
      · exact absurd he2 (h1 (k, v) hm)
      · rw [if_neg he2]
        exact ih h2 hm

/-- A successful lookup names a present binding. -/
theorem alookup_some_mem {l : List (List Char × β)} {k : List Char} {v : β}
    (h : alookup l k = some v) : (k, v) ∈ l := by
  induction l with
  | nil => cases h
  | cons p rest ih =>
    obtain ⟨k', v'⟩ := p
    unfold alookup at h
    by_cases he : k' = k
    · rw [if_pos he] at h
      simp only [Option.some_inj] at h
      rw [← he, ← h]
      exact List.mem_cons_self _ _
    · rw [if_neg he] at h
      exact List.mem_cons_of_mem _ (ih h)

/-- A failed lookup means the key is bound nowhere. -/
theorem alookup_none_iff {l : List (List Char × β)} {k : List Char} :
    alookup l k = none ↔ ∀ p ∈ l, p.1 ≠ k := by
  induction l with
  | nil => simp [alookup]
  | cons p rest ih =>
    obtain ⟨k', v'⟩ := p
    unfold alookup
    by_cases he : k' = k
    · rw [if_pos he]
      constructor
      · intro h
        exact (Option.some_ne_none v' h).elim
      · intro h
        exact absurd he (h (k', v') (List.mem_cons_self _ _))
    · rw [if_neg he, ih]
      constructor
      · intro h q hq
        rcases List.mem_cons.mp hq with rfl | hq
        · exact he
        · exact h q hq
      · intro h q hq
        exact h q (List.mem_cons_of_mem _ hq)

/-- The current per-type counter value (0 when the type is unseen). -/
def countsVal (c : CState) (ty : List Char) : Nat :=
  (alookup c.counts ty).getD 0

/-- Counter.Next on a memo hit returns the memoized token, untouched state. -/
theorem counterNext_hit {c : CState} {ty txt tok : List Char}
    (hl : alookup c.seen txt = some tok) : counterNext c ty txt = (tok, c) := by
  unfold counterNext
  rw [hl]

/-- Counter.Next on a fresh text allocates the next token of its type. -/
theorem counterNext_fresh {c : CState} {ty txt : List Char}
    (hl : alookup c.seen txt = none) :
    counterNext c ty txt = (tokenOf ty (countsVal c ty + 1),
      ⟨(ty, countsVal c ty + 1) :: c.counts,
       (txt, tokenOf ty (countsVal c ty + 1)) :: c.seen⟩) := by
  unfold counterNext
  rw [hl]
  rfl

/-- Counter value after a fresh allocation. -/
theorem countsVal_after_fresh (c : CState) (ty txt ty2 : List Char) :
    countsVal ⟨(ty, countsVal c ty + 1) :: c.counts, (txt, tokenOf ty (countsVal c ty + 1)) :: c.seen⟩ ty2 =
      if ty = ty2 then countsVal c ty + 1 else countsVal c ty2 := by
  by_cases he : ty = ty2 <;> simp [countsVal, alookup, he]

/-- The Counter's session invariant: the memo has distinct keys, distinct
tokens, and every memoized token is `[TYPE_N]` for a positive `N` not
exceeding that type's current counter value. -/
structure CInv (c : CState) : Prop where
  keys : c.seen.Pairwise (fun p q => p.1 ≠ q.1)
  toks : c.seen.Pairwise (fun p q => p.2 ≠ q.2)
  shape : ∀ p ∈ c.seen, ∃ ty n, 1 ≤ n ∧ n ≤ countsVal c ty ∧ p.2 = tokenOf ty n

/-- The empty session state satisfies the invariant. -/
theorem cinv_init : CInv ⟨[], []⟩ :=
  ⟨List.Pairwise.nil, List.Pairwise.nil, fun p hp => absurd hp (List.not_mem_nil p)⟩

/-- Two memo entries with the same token coincide. -/
theorem cinv_tok_inj {c : CState} (h : CInv c) {p q : List Char × List Char}
    (hp : p ∈ c.seen) (hq : q ∈ c.seen) (he : p.2 = q.2) : p = q := by
  by_contra hne
  exact h.toks.forall (fun {a b} hab => Ne.symm hab) hp hq hne he

/-- A freshly allocated token collides with no memoized one. -/
theorem fresh_tok_new {c : CState} (h : CInv c) (ty : List Char) :
    ∀ p ∈ c.seen, tokenOf ty (countsVal c ty + 1) ≠ p.2 := by
  intro p hp heq
  rcases h.shape p hp with ⟨typ, np, hn1, hn2, hshape⟩
  rcases tokenOf_inj (heq.trans hshape).symm with ⟨rfl, hn⟩
  omega

/-- Counter.Next preserves the invariant; the memo only grows, the returned
token is memoized for the requested text, and no per-type count drops. -/
theorem counterNext_inv {c : CState} (h : CInv c) (ty txt : List Char) :
    CInv (counterNext c ty txt).2 ∧
    (∀ p ∈ c.seen, p ∈ (counterNext c ty txt).2.seen) ∧
    (txt, (counterNext c ty txt).1) ∈ (counterNext c ty txt).2.seen ∧
    (∀ ty2, countsVal c ty2 ≤ countsVal (counterNext c ty txt).2 ty2) := by
  cases hl : alookup c.seen txt with
  | some tok =>
    rw [counterNext_hit hl]
    exact ⟨h, fun p hp => hp, alookup_some_mem hl, fun ty2 => le_refl _⟩
  | none =>
    rw [counterNext_fresh hl]
    have hmono : ∀ ty2, countsVal c ty2 ≤
        countsVal ⟨(ty, countsVal c ty + 1) :: c.counts,
          (txt, tokenOf ty (countsVal c ty + 1)) :: c.seen⟩ ty2 := by
      intro ty2
      rw [countsVal_after_fresh]
      by_cases he : ty = ty2
      · rw [if_pos he, ← he]
        omega
      · rw [if_neg he]
    refine ⟨⟨?_, ?_, ?_⟩, fun p hp => List.mem_cons_of_mem _ hp,
      List.mem_cons_self _ _, hmono⟩
    · refine List.pairwise_cons.mpr ⟨?_, h.keys⟩
      intro q hq he
      exact (alookup_none_iff.mp hl q hq) he.symm
    · refine List.pairwise_cons.mpr ⟨?_, h.toks⟩
      intro q hq
      exact fresh_tok_new h ty q hq
    · intro p hp
      rcases List.mem_cons.mp hp with rfl | hp
      · refine ⟨ty, countsVal c ty + 1, by omega, ?_, rfl⟩
        rw [countsVal_after_fresh, if_pos rfl]
      · rcases h.shape p hp with ⟨typ, np, hn1, hn2, hshape⟩
        exact ⟨typ, np, hn1, le_trans hn2 (hmono typ), hshape⟩

/-- assignTokens preserves the invariant; the memo only grows and no
per-type count drops. -/
theorem assign_inv : ∀ (es : List (Entity Char)) {c : CState}, CInv c →
    CInv (assignTokens c es).2 ∧
    (∀ p ∈ c.seen, p ∈ (assignTokens c es).2.seen) ∧
    (∀ ty2, countsVal c ty2 ≤ countsVal (assignTokens c es).2 ty2) := by
  intro es
  induction es with
  | nil => exact fun h => ⟨h, fun p hp => hp, fun ty2 => le_refl _⟩
  | cons e rest ih =>
    intro c h
    rcases counterNext_inv h e.type e.text with ⟨h1, h2, _, h4⟩
    rcases ih h1 with ⟨g1, g2, g3⟩
    exact ⟨g1, fun p hp => g2 p (h2 p hp),
      fun ty2 => le_trans (h4 ty2) (g3 ty2)⟩

/-- Coherence of the memo across a whole assignment pass: once a text is
memoized to a token, every later tag carries that token exactly for that
text. -/
theorem assign_seen_coherent : ∀ (es : List (Entity Char)) {c : CState}, CInv c →
    ∀ {txt tok : List Char}, (txt, tok) ∈ c.seen →
    ∀ q ∈ (assignTokens c es).1,
      (q.1.text = txt → q.2 = tok) ∧ (q.2 = tok → q.1.text = txt) := by
  intro es
  induction es with
  | nil =>
    intro c _ txt tok _ q hq
    cases hq
  | cons e rest ih =>
    intro c h txt tok hm q hq
    rcases counterNext_inv h e.type e.text with ⟨h1, h2, _, _⟩
    cases hl : alookup c.seen e.text with
    | some t1 =>
      rw [counterNext_hit hl] at *
      simp only [assignTokens] at hq
      rw [counterNext_hit hl] at hq
      rcases List.mem_cons.mp hq with rfl | hq
      · constructor
        · intro he
          rw [he] at hl
          rw [alookup_mem h.keys hm] at hl
          exact (Option.some_inj.mp hl).symm
        · intro he
          have hmem1 : (e.text, t1) ∈ c.seen := alookup_some_mem hl
          have : ((e.text, t1) : List Char × List Char) = (txt, tok) :=
            cinv_tok_inj h hmem1 hm (by simpa using he)
          simpa using congrArg Prod.fst this
      · exact ih h1 hm q hq
    | none =>
      rw [counterNext_fresh hl] at *
      simp only [assignTokens] at hq
      rw [counterNext_fresh hl] at hq
      rcases List.mem_cons.mp hq with rfl | hq
      · constructor
        · intro he
          rw [he] at hl
          rw [alookup_mem h.keys hm] at hl
          cases hl
        · intro he
          exact ((fresh_tok_new h e.type (txt, tok) hm) he).elim
      · exact ih h1 (h2 _ hm) q hq

/-- The tags of one assignment pass pair equal texts with equal tokens and
distinct texts with distinct tokens. -/
theorem assign_pairwise : ∀ (es : List (Entity Char)) {c : CState}, CInv c →
    (assignTokens c es).1.Pairwise
      (fun p q => p.1.text = q.1.text ↔ p.2 = q.2) := by
  intro es
  induction es with
  | nil =>
    intro c _
    exact List.Pairwise.nil
  | cons e rest ih =>
    intro c h
    rcases counterNext_inv h e.type e.text with ⟨h1, _, h3, _⟩
    show List.Pairwise _ ((e, (counterNext c e.type e.text).1) ::
      (assignTokens (counterNext c e.type e.text).2 rest).1)
    refine List.pairwise_cons.mpr ⟨?_, ih h1⟩
    intro q hq
    have hco := assign_seen_coherent rest h1 h3 q hq
    constructor
    · intro he
      exact (hco.1 he.symm).symm
    · intro he
      exact (hco.2 he.symm).symm

/-- Every tag token of a pass is well formed when the entity types carry no
delimiters and the starting memo is well formed. -/
theorem assign_WF : ∀ (es : List (Entity Char)) {c : CState},
    (∀ p ∈ c.seen, WFTok p.2) → (∀ e ∈ es, BFree e.type) →
    (∀ pair ∈ (assignTokens c es).1, WFTok pair.2) ∧
    (∀ p ∈ (assignTokens c es).2.seen, WFTok p.2) := by
  intro es
  induction es with
  | nil =>
    intro c hseen _
    exact ⟨fun pair hp => absurd hp (List.not_mem_nil pair), hseen⟩
  | cons e rest ih =>
    intro c hseen hty
    have hty_e : BFree e.type := hty e (List.mem_cons_self _ _)
    have hty' : ∀ f ∈ rest, BFree f.type := fun f hf => hty f (List.mem_cons_of_mem _ hf)
    have hstep : WFTok (counterNext c e.type e.text).1 ∧
        (∀ p ∈ (counterNext c e.type e.text).2.seen, WFTok p.2) := by
      cases hl : alookup c.seen e.text with
      | some t1 =>
        rw [counterNext_hit hl]
        exact ⟨hseen _ (alookup_some_mem hl), hseen⟩
      | none =>
        rw [counterNext_fresh hl]
        refine ⟨tokenOf_WF hty_e _, ?_⟩
        intro p hp
        rcases List.mem_cons.mp hp with rfl | hp
        · exact tokenOf_WF hty_e _
        · exact hseen p hp
    rcases ih (c := (counterNext c e.type e.text).2) hstep.2 hty' with ⟨g1, g2⟩
    refine ⟨?_, g2⟩
    intro pair hp
    rcases List.mem_cons.mp hp with rfl | hp
    · exact hstep.1
    · exact g1 pair hp

/-- The tag list enumerates the input entities in order. -/
theorem assign_fst : ∀ (es : List (Entity Char)) (c : CState),
    (assignTokens c es).1.map Prod.fst = es := by
  intro es
  induction es with
  | nil => intro c; rfl
  | cons e rest ih =>
    intro c
    show (e :: ((assignTokens (counterNext c e.type e.text).2 rest).1.map Prod.fst)) = _
    rw [ih]

/-- The sublist of entities whose text is seen for the first time (relative
to the already-known keys `ks`). -/
def firstSeen (ks : List (List Char)) : List (Entity Char) → List (Entity Char)
  | [] => []
  | e :: rest =>
    if e.text ∈ ks then firstSeen ks rest
    else e :: firstSeen (e.text :: ks) rest

/-- The defining recurrence of firstSeen. -/
theorem firstSeen_cons (ks : List (List Char)) (e : Entity Char) (rest : List (Entity Char)) :
    firstSeen ks (e :: rest) =
      if e.text ∈ ks then firstSeen ks rest else e :: firstSeen (e.text :: ks) rest := rfl

/-- The per-type count grows by exactly the number of first-seen distinct
texts of that type. -/
theorem assign_counts : ∀ (es : List (Entity Char)) (c : CState) (ty : List Char),
    countsVal (assignTokens c es).2 ty =
      countsVal c ty + ((firstSeen (c.seen.map Prod.fst) es).filter
        (fun e => decide (e.type = ty))).length := by
  intro es
  induction es with
  | nil =>
    intro c ty
    simp [assignTokens, firstSeen]
  | cons e rest ih =>
    intro c ty
    show countsVal (assignTokens (counterNext c e.type e.text).2 rest).2 ty = _
    cases hl : alookup c.seen e.text with
    | some t1 =>
      rw [counterNext_hit hl]
      have hks : e.text ∈ c.seen.map Prod.fst := by
        have := alookup_some_mem hl
        exact List.mem_map.mpr ⟨(e.text, t1), this, rfl⟩
      rw [firstSeen_cons, if_pos hks]
      exact ih c ty
    | none =>
      rw [counterNext_fresh hl]
      have hks : e.text ∉ c.seen.map Prod.fst := by
        intro hm
        rcases List.mem_map.mp hm with ⟨p, hp, hfst⟩
        exact (alookup_none_iff.mp hl p hp) hfst
      rw [firstSeen_cons, if_neg hks]
      have hrec := ih ⟨(e.type, countsVal c e.type + 1) :: c.counts,
        (e.text, tokenOf e.type (countsVal c e.type + 1)) :: c.seen⟩ ty
      have hmap : ((e.text, tokenOf e.type (countsVal c e.type + 1)) :: c.seen).map Prod.fst =
          e.text :: c.seen.map Prod.fst := rfl
      rw [hmap] at hrec
      rw [hrec, countsVal_after_fresh]
      by_cases he : e.type = ty
      · subst he
        rw [if_pos rfl]
        rw [List.filter_cons_of_pos (by simp)]
        rw [List.length_cons]
        omega
      · rw [if_neg he]
        rw [List.filter_cons_of_neg (by simpa using he)]

/-- The document of the spec's token-determinism example. -/
def c6Text : List Char := "Alice and Bob met Alice again.".toList

/-- Its three PERSON entities, "Alice" twice, "Bob" once. -/
def c6Ents : List (Entity Char) :=
  [⟨0, 5, "PERSON".toList, "Alice".toList, 1, "regex".toList⟩,
   ⟨10, 13, "PERSON".toList, "Bob".toList, 1, "regex".toList⟩,
   ⟨18, 23, "PERSON".toList, "Alice".toList, 1, "regex".toList⟩]

/-- Claim C6: within one Redact call, tags carry equal tokens exactly for
byte-identical texts (same text → same token, distinct texts → distinct
tokens, types notwithstanding); on the spec's example the sanitized text is
`[PERSON_1] and [PERSON_2] met [PERSON_1] again.` with exactly two
mappings. -/
theorem redact_token_determinism :
    (∀ (entities : List (Entity Char)) (p q : Entity Char × List Char),
      p ∈ (assignTokens ⟨[], []⟩ (List.insertionSort startLE entities)).1 →
      q ∈ (assignTokens ⟨[], []⟩ (List.insertionSort startLE entities)).1 →
      (p.1.text = q.1.text ↔ p.2 = q.2)) ∧
    (redact c6Text c6Ents).sanitizedText =
      "[PERSON_1] and [PERSON_2] met [PERSON_1] again.".toList ∧
    (redact c6Text c6Ents).mappings.length = 2 := by
  refine ⟨?_, by decide, by decide⟩
  intro entities p q hp hq
  have hpw := assign_pairwise (List.insertionSort startLE entities) cinv_init
  by_cases hpq : p = q
  · subst hpq
    exact ⟨fun _ => rfl, fun _ => rfl⟩
  · refine hpw.forall ?_ hp hq hpq
    intro a b hab
    exact ⟨fun h => (hab.1 h.symm).symm, fun h => (hab.2 h.symm).symm⟩

/-- The first Alice tag of the example. -/
def c6TagA : Entity Char × List Char :=
  (⟨0, 5, "PERSON".toList, "Alice".toList, 1, "regex".toList⟩, "[PERSON_1]".toList)

/-- The second Alice tag of the example. -/
def c6TagC : Entity Char × List Char :=
  (⟨18, 23, "PERSON".toList, "Alice".toList, 1, "regex".toList⟩, "[PERSON_1]".toList)

/-- Claim C6, witness: both Alice occurrences are tagged, and
`redact_token_determinism` applies to them. -/
theorem c6_witness :
    c6TagA ∈ (assignTokens ⟨[], []⟩ (List.insertionSort startLE c6Ents)).1 ∧
    c6TagC ∈ (assignTokens ⟨[], []⟩ (List.insertionSort startLE c6Ents)).1 ∧
    (c6TagA.1.text = c6TagC.1.text ↔ c6TagA.2 = c6TagC.2) :=
  ⟨by decide, by decide,
   redact_token_determinism.1 c6Ents c6TagA c6TagC (by decide) (by decide)⟩

/-- Claim C10: token reuse is keyed solely by the original text.  A first
sight allocates `[TYPE_N]` with the type of that first occurrence; any
later occurrence of the same text — entity type ignored — returns that very
token and leaves the whole counter state untouched; and each per-type count
equals the number of first-seen distinct texts of that type. -/
theorem counter_keyed_by_text :
    (∀ (c : CState) (ty txt : List Char), alookup c.seen txt = none →
      (counterNext c ty txt).1 = tokenOf ty (countsVal c ty + 1)) ∧
    (∀ (es : List (Entity Char)) (c : CState) (ty2 txt tok : List Char), CInv c →
      (txt, tok) ∈ c.seen →
      counterNext (assignTokens c es).2 ty2 txt = (tok, (assignTokens c es).2)) ∧
    (∀ (es : List (Entity Char)) (c : CState) (ty : List Char),
      countsVal (assignTokens c es).2 ty =
        countsVal c ty + ((firstSeen (c.seen.map Prod.fst) es).filter
          (fun e => decide (e.type = ty))).length) := by
  refine ⟨?_, ?_, assign_counts⟩
  · intro c ty txt hl
    rw [counterNext_fresh hl]
  · intro es c ty2 txt tok hinv hm
    rcases assign_inv es hinv with ⟨hinv2, hgrow, _⟩
    exact counterNext_hit (alookup_mem hinv2.keys (hgrow _ hm))

/-- A session state as it stands after `[PERSON_1]` was issued for "Bob". -/
def c10State : CState :=
  ⟨[("PERSON".toList, 1)], [("Bob".toList, tokenOf "PERSON".toList 1)]⟩

/-- An unrelated entity processed in between. -/
def c10Mid : Entity Char := ⟨0, 1, "EMAIL".toList, "x".toList, 1, "regex".toList⟩

/-- Claim C10, witness: the session invariant holds concretely, and asking
the counter later for "Bob" under the different type EMAIL returns the
original `[PERSON_1]` with the state unchanged, via
`counter_keyed_by_text`. -/
theorem c10_witness :
    (alookup (⟨[], []⟩ : CState).seen "Bob".toList = none ∧
      (counterNext ⟨[], []⟩ "PERSON".toList "Bob".toList).1 =
        tokenOf "PERSON".toList (countsVal ⟨[], []⟩ "PERSON".toList + 1)) ∧
    CInv c10State ∧ ("Bob".toList, tokenOf "PERSON".toList 1) ∈ c10State.seen ∧
    counterNext (assignTokens c10State [c10Mid]).2 "EMAIL".toList "Bob".toList =
      (tokenOf "PERSON".toList 1, (assignTokens c10State [c10Mid]).2) := by
  have hinv : CInv c10State := by
    refine ⟨List.pairwise_singleton _ _, List.pairwise_singleton _ _, ?_⟩
    intro p hp
    rcases List.mem_singleton.mp hp with rfl
    exact ⟨"PERSON".toList, 1, le_refl 1, by decide, rfl⟩
  refine ⟨⟨rfl, counter_keyed_by_text.1 ⟨[], []⟩ "PERSON".toList "Bob".toList rfl⟩,
    hinv, List.mem_singleton.mpr rfl, ?_⟩
  exact counter_keyed_by_text.2.1 [c10Mid] c10State "EMAIL".toList "Bob".toList
    (tokenOf "PERSON".toList 1) hinv (List.mem_singleton.mpr rfl)

/-- Boolean prefix test unfolded to an existential. -/
theorem isPrefixOf_exists {l1 l2 : List Char} :
    l1.isPrefixOf l2 = true ↔ ∃ r, l1 ++ r = l2 := by
  induction l1 generalizing l2 with
  | nil => simp [List.isPrefixOf]
  | cons a as ih =>
    cases l2 with
    | nil => simp [List.isPrefixOf]
    | cons b bs =>
      simp only [List.isPrefixOf, Bool.and_eq_true, beq_iff_eq, ih, List.cons_append,
        List.cons_eq_cons]
      constructor
      · rintro ⟨rfl, r, rfl⟩
        exact ⟨r, rfl, rfl⟩
      · rintro ⟨r, rfl, h2⟩
        exact ⟨rfl, r, h2⟩

/-- A sanitized text is an interleaving of plain gaps and spliced tokens;
each piece renders to its visible text and remembers, for tokens, the
original it replaced. -/
inductive Piece where
  | gap (g : List Char)
  | tok (t : List Char) (orig : List Char)
deriving DecidableEq

/-- The visible (sanitized-side) text of a piece. -/
def Piece.renderS : Piece → List Char
  | gap g => g
  | tok t _ => t

/-- The original (restored-side) text of a piece. -/
def Piece.renderO : Piece → List Char
  | gap g => g
  | tok _ o => o

/-- The visible text of a piece list. -/
def renderMix (ps : List Piece) : List Char := (ps.map Piece.renderS).flatten

/-- The restored text of a piece list. -/
def renderOrig (ps : List Piece) : List Char := (ps.map Piece.renderO).flatten

/-- Well-formedness of a piece: gaps and originals are delimiter-free,
tokens are well formed. -/
def PieceOK : Piece → Prop
  | .gap g => BFree g
  | .tok t o => WFTok t ∧ BFree o

/-- The action of one mapping replacement on a piece: a token piece whose
token matches becomes a plain gap holding the replacement. -/
def Piece.applyM (tk o : List Char) : Piece → Piece
  | .gap g => .gap g
  | .tok t orig => if t = tk then .gap o else .tok t orig

theorem renderMix_nil : renderMix [] = [] := rfl

theorem renderMix_cons (p : Piece) (ps : List Piece) :
    renderMix (p :: ps) = p.renderS ++ renderMix ps := by
  simp [renderMix]

theorem renderMix_append (ps qs : List Piece) :
    renderMix (ps ++ qs) = renderMix ps ++ renderMix qs := by
  simp [renderMix]

theorem renderOrig_cons (p : Piece) (ps : List Piece) :
    renderOrig (p :: ps) = p.renderO ++ renderOrig ps := by
  simp [renderOrig]

/-- The ReplaceAll scan walks over characters that cannot start the pattern. -/
theorem replLoop_clean_prefix {o : Char} {old new : List Char} :
    ∀ {g s : List Char}, (∀ c ∈ g, c ≠ o) →
    replLoop o old new (g ++ s) = g ++ replLoop o old new s := by
  intro g
  induction g with
  | nil => intro s _; rfl
  | cons c g ih =>
    intro s hg
    have hnp : ¬ (o :: old).isPrefixOf (c :: (g ++ s)) = true := by
      intro hb
      rcases isPrefixOf_exists.mp hb with ⟨r, hr⟩
      exact hg c (List.mem_cons_self c g) (List.cons_eq_cons.mp hr).1.symm
    rw [List.cons_append, replLoop_cons, if_neg hnp,
      ih (fun d hd => hg d (List.mem_cons_of_mem c hd))]
    rfl

/-- The ReplaceAll scan consumes an exact occurrence of the pattern. -/
theorem replLoop_match {o : Char} {old new s : List Char} :
    replLoop o old new ((o :: old) ++ s) = new ++ replLoop o old new s := by
  rw [List.cons_append, replLoop_cons, if_pos, List.drop_left]
  exact isPrefixOf_exists.mpr ⟨s, rfl⟩

/-- One well-formed token is never a prefix of a text beginning with a
different well-formed token. -/
theorem wftok_no_prefix {t u : List Char} (ht : WFTok t) (hu : WFTok u) (hne : t ≠ u)
    (s : List Char) : ¬ t.isPrefixOf (u ++ s) = true := by
  intro hb
  rcases ht with ⟨mt, rfl, hmt⟩
  rcases hu with ⟨mu, rfl, hmu⟩
  rcases isPrefixOf_exists.mp hb with ⟨r, hr⟩
  have hr2 : '[' :: (mt ++ ']' :: r) = '[' :: (mu ++ ']' :: s) := by
    simpa [List.append_assoc] using hr
  have hr3 := (List.cons_eq_cons.mp hr2).2
  have hxt : ']' ∉ mt := fun hm => (hmt _ hm).2 rfl
  have hxu : ']' ∉ mu := fun hm => (hmu _ hm).2 rfl
  rcases split_first mt mu hxt hxu hr3 with ⟨rfl, _⟩
  exact hne rfl

/-- The ReplaceAll scan walks over a non-matching well-formed token. -/
theorem replLoop_tok_skip {t u : List Char} (ht : WFTok t) (hu : WFTok u) (hne : t ≠ u)
    {new s : List Char} {o : Char} {old : List Char} (hto : t = o :: old) :
    replLoop o old new (u ++ s) = u ++ replLoop o old new s := by
  rcases hu with ⟨mu, rfl, hmu⟩
  have hassoc : ('[' :: mu ++ [']']) ++ s = '[' :: ((mu ++ [']']) ++ s) := by
    simp
  have hnp : ¬ (o :: old).isPrefixOf ('[' :: ((mu ++ [']']) ++ s)) = true := by
    rw [← hassoc, ← hto]
    exact wftok_no_prefix ht ⟨mu, rfl, hmu⟩ hne s
  have hclean : ∀ c ∈ mu ++ [']'], c ≠ o := by
    intro c hc
    have ho : o = '[' := by
      rcases ht with ⟨mt, hmt, _⟩
      rw [hto] at hmt
      exact (List.cons_eq_cons.mp hmt).1
    rcases List.mem_append.mp hc with hc | hc
    · rw [ho]
      exact (hmu c hc).1
    · rcases List.mem_singleton.mp hc with rfl
      rw [ho]
      decide
  rw [hassoc, replLoop_cons, if_neg hnp, replLoop_clean_prefix hclean]
  simp

/-- strings.ReplaceAll of one well-formed token over a well-formed mixed
text replaces exactly the matching token pieces. -/
theorem replaceAll_mix : ∀ (ps : List Piece) {tk o : List Char}, WFTok tk →
    (∀ p ∈ ps, PieceOK p) →
    replaceAll (renderMix ps) tk o = renderMix (ps.map (Piece.applyM tk o)) := by
  intro ps
  induction ps with
  | nil =>
    intro tk o ht _
    rcases ht with ⟨mid, rfl, _⟩
    rfl
  | cons p ps ih =>
    intro tk o ht hok
    have hokp := hok p (List.mem_cons_self p ps)
    have hoks : ∀ q ∈ ps, PieceOK q := fun q hq => hok q (List.mem_cons_of_mem p hq)
    obtain ⟨mid, htk, hmid⟩ := ht
    cases p with
    | gap g =>
      have hclean : ∀ c ∈ g, c ≠ '[' := fun c hc => (hokp c hc).1
      rw [renderMix_cons]
      have hra : replaceAll (Piece.renderS (Piece.gap g) ++ renderMix ps) tk o =
          g ++ replaceAll (renderMix ps) tk o := by
        rw [htk]
        exact replLoop_clean_prefix hclean
      rw [hra, ih ⟨mid, htk, hmid⟩ hoks, List.map_cons, renderMix_cons]
      rfl
    | tok t orig =>
      by_cases hte : t = tk
      · subst hte
        rw [renderMix_cons]
        have hra : replaceAll (Piece.renderS (Piece.tok t orig) ++ renderMix ps) t o =
            o ++ replaceAll (renderMix ps) t o := by
          rw [htk]
          exact replLoop_match
        rw [hra, ih ⟨mid, htk, hmid⟩ hoks, List.map_cons, renderMix_cons]
        rw [show Piece.applyM t o (Piece.tok t orig) = Piece.gap o from by
          simp [Piece.applyM]]
        rfl
      · rw [renderMix_cons]
        have hra : replaceAll (Piece.renderS (Piece.tok t orig) ++ renderMix ps) tk o =
            t ++ replaceAll (renderMix ps) tk o := by
          rw [htk]
          exact replLoop_tok_skip ⟨mid, htk, hmid⟩ hokp.1
            (fun h => hte h.symm) htk
        rw [hra, ih ⟨mid, htk, hmid⟩ hoks, List.map_cons, renderMix_cons]
        rw [show Piece.applyM tk o (Piece.tok t orig) = Piece.tok t orig from by
          simp [Piece.applyM, hte]]
        rfl

/-- The replacement action keeps pieces well formed when the replacement
text is delimiter-free. -/
theorem applyM_OK {p : Piece} (h : PieceOK p) {tk o : List Char} (ho : BFree o) :
    PieceOK (Piece.applyM tk o p) := by
  cases p with
  | gap g => exact h
  | tok t orig =>
    by_cases hte : t = tk
    · simp only [Piece.applyM, if_pos hte]
      exact ho
    · simp only [Piece.applyM, if_neg hte]
      exact h

/-- Applying a whole mapping list to a piece list, in order. -/
def applyMaps (ms : List Mapping) (ps : List Piece) : List Piece :=
  ms.foldl (fun ps m => ps.map (Piece.applyM m.token m.original)) ps

/-- A sequential ReplaceAll pass over a well-formed mixed text is the
piecewise application of the mappings. -/
theorem foldRepl_mix : ∀ (ms : List Mapping) (ps : List Piece),
    (∀ p ∈ ps, PieceOK p) → (∀ m ∈ ms, WFTok m.token ∧ BFree m.original) →
    ms.foldl (fun t m => replaceAll t m.token m.original) (renderMix ps) =
      renderMix (applyMaps ms ps) := by
  intro ms
  induction ms with
  | nil =>
    intro ps _ _
    rfl
  | cons m ms ih =>
    intro ps hok hm
    have hmm := hm m (List.mem_cons_self m ms)
    have hms : ∀ m2 ∈ ms, WFTok m2.token ∧ BFree m2.original :=
      fun m2 h2 => hm m2 (List.mem_cons_of_mem m h2)
    show ms.foldl _ (replaceAll (renderMix ps) m.token m.original) = _
    rw [replaceAll_mix ps hmm.1 hok]
    have hok2 : ∀ p ∈ ps.map (Piece.applyM m.token m.original), PieceOK p := by
      intro p hp
      rcases List.mem_map.mp hp with ⟨q, hq, rfl⟩
      exact applyM_OK (hok q hq) hmm.2
    exact ih _ hok2 hms

/-- Folding mapping applications commutes with the per-piece fold. -/
theorem applyMaps_map : ∀ (ms : List Mapping) (ps : List Piece),
    applyMaps ms ps = ps.map (fun p => ms.foldl (fun p m => Piece.applyM m.token m.original p) p) := by
  intro ms
  induction ms with
  | nil =>
    intro ps
    simp [applyMaps]
  | cons m ms ih =>
    intro ps
    show applyMaps ms (ps.map (Piece.applyM m.token m.original)) = _
    rw [ih, List.map_map]
    rfl

/-- Gaps are fixed points of mapping application. -/
theorem foldApply_gap (ms : List Mapping) (g : List Char) :
    ms.foldl (fun p m => Piece.applyM m.token m.original p) (Piece.gap g) = Piece.gap g := by
  induction ms with
  | nil => rfl
  | cons m ms ih => exact ih

/-- A token piece whose token is covered consistently by the mapping list
ends as the gap holding its original. -/
theorem foldApply_tok : ∀ (ms : List Mapping) (t orig : List Char),
    (∃ m ∈ ms, m.token = t) → (∀ m ∈ ms, m.token = t → m.original = orig) →
    ms.foldl (fun p m => Piece.applyM m.token m.original p) (Piece.tok t orig) =
      Piece.gap orig := by
  intro ms
  induction ms with
  | nil =>
    intro t orig hex _
    rcases hex with ⟨m, hm, _⟩
    cases hm
  | cons m ms ih =>
    intro t orig hex hall
    by_cases hte : m.token = t
    · show ms.foldl _ (Piece.applyM m.token m.original (Piece.tok t orig)) = _
      rw [show Piece.applyM m.token m.original (Piece.tok t orig) = Piece.gap m.original from by
        simp [Piece.applyM, hte]]
      rw [hall m (List.mem_cons_self m ms) hte]
      exact foldApply_gap ms orig
    · show ms.foldl _ (Piece.applyM m.token m.original (Piece.tok t orig)) = _
      rw [show Piece.applyM m.token m.original (Piece.tok t orig) = Piece.tok t orig from by
        simp [Piece.applyM]
        intro h
        exact absurd h.symm hte]
      rcases hex with ⟨m2, hm2, htok⟩
      rcases List.mem_cons.mp hm2 with rfl | hm2
      · exact absurd htok hte
      · exact ih t orig ⟨m2, hm2, htok⟩
          (fun m3 h3 => hall m3 (List.mem_cons_of_mem m h3))

/-- When every token piece is covered consistently, applying all mappings
renders the original text. -/
theorem applyMaps_complete (ms : List Mapping) (ps : List Piece)
    (hcov : ∀ t orig, Piece.tok t orig ∈ ps →
      (∃ m ∈ ms, m.token = t) ∧ (∀ m ∈ ms, m.token = t → m.original = orig)) :
    renderMix (applyMaps ms ps) = renderOrig ps := by
  rw [applyMaps_map]
  unfold renderMix renderOrig
  rw [List.map_map]
  congr 1
  apply List.map_congr_left
  intro p hp
  cases p with
  | gap g =>
    show Piece.renderS (List.foldl _ (Piece.gap g) ms) = _
    rw [show List.foldl (fun p m => Piece.applyM m.token m.original p) (Piece.gap g) ms =
      Piece.gap g from foldApply_gap ms g]
    rfl
  | tok t orig =>
    rcases hcov t orig hp with ⟨hex, hall⟩
    show Piece.renderS (List.foldl _ (Piece.tok t orig) ms) = _
    rw [show List.foldl (fun p m => Piece.applyM m.token m.original p) (Piece.tok t orig) ms =
      Piece.gap orig from foldApply_tok ms t orig hex hall]
    rfl

/-- The mixed-piece decomposition of a spliced text: alternating gaps (text
between entities, from the running cursor) and spliced tokens. -/
def mixOf (text : List Char) : List (Entity Char × List Char) → Nat → List Piece
  | [], pos => [Piece.gap (text.drop pos)]
  | t :: rest, pos =>
    Piece.gap (seg text pos t.1.start) :: Piece.tok t.2 t.1.text :: mixOf text rest t.1.stop

/-- The next splice position (the text length when no tag remains). -/
def hsOf (text : List Char) : List (Entity Char × List Char) → Nat
  | [] => text.length
  | t :: _ => t.1.start

/-- The cursor-independent tail of the decomposition. -/
def tailMix (text : List Char) : List (Entity Char × List Char) → List Piece
  | [] => []
  | t :: rest => Piece.tok t.2 t.1.text :: mixOf text rest t.1.stop

/-- Splitting the decomposition into its leading gap and its tail. -/
theorem mixOf_eq (text : List Char) (tags : List (Entity Char × List Char)) (pos : Nat) :
    mixOf text tags pos = Piece.gap (seg text pos (hsOf text tags)) :: tailMix text tags := by
  cases tags with
  | nil =>
    show [Piece.gap (text.drop pos)] = [Piece.gap ((text.take text.length).drop pos)]
    rw [List.take_length]
  | cons t rest => rfl

/-- The chain discipline of a splice list: entity spans are non-empty, lie
within the text, and follow each other without overlap from the cursor on. -/
def ChainE (len : Nat) : Nat → List (Entity Char) → Prop
  | _, [] => True
  | pos, e :: rest => pos ≤ e.start ∧ e.start < e.stop ∧ e.stop ≤ len ∧ ChainE len e.stop rest

/-- The chain survives lowering the cursor. -/
theorem ChainE_mono {len : Nat} : ∀ {es : List (Entity Char)} {p q : Nat},
    ChainE len p es → q ≤ p → ChainE len q es := by
  intro es
  cases es with
  | nil => intro p q _ _; trivial
  | cons e rest =>
    intro p q h hq
    exact ⟨le_trans hq h.1, h.2.1, h.2.2.1, h.2.2.2⟩

/-- A start-sorted, pairwise-disjoint, valid entity list is a chain. -/
theorem chain_build : ∀ (es : List (Entity Char)) (len pos : Nat),
    es.Pairwise startLE → es.Pairwise SpansDisjoint →
    (∀ e ∈ es, e.start < e.stop ∧ e.stop ≤ len) →
    (∀ e ∈ es, pos ≤ e.start) → ChainE len pos es := by
  intro es
  induction es with
  | nil => intro len pos _ _ _ _; trivial
  | cons e rest ih =>
    intro len pos hsort hdisj hval hpos
    rcases List.pairwise_cons.mp hsort with ⟨hs1, hs2⟩
    rcases List.pairwise_cons.mp hdisj with ⟨hd1, hd2⟩
    have hve := hval e (List.mem_cons_self e rest)
    refine ⟨hpos e (List.mem_cons_self e rest), hve.1, hve.2, ?_⟩
    refine ih len e.stop hs2 hd2 (fun f hf => hval f (List.mem_cons_of_mem e hf)) ?_
    intro f hf
    have hsf := hs1 f hf
    have hdf := hd1 f hf
    have hvf := hval f (List.mem_cons_of_mem e hf)
    unfold startLE at hsf
    unfold SpansDisjoint at hdf
    rw [max_eq_right hsf] at hdf
    rcases min_le_iff.mp hdf with hm | hm
    · exact hm
    · omega

/-- Gluing a slice back onto the trailing rest of the text. -/
theorem seg_glue (l : List α) (a b : Nat) (hab : a ≤ b) :
    (l.take b).drop a ++ l.drop b = l.drop a := by
  conv_rhs => rw [← List.take_append_drop b l]
  rw [List.drop_append_eq_append_drop]
  congr 1
  rw [List.length_take]
  by_cases hc : a ≤ min b l.length
  · rw [Nat.sub_eq_zero_of_le hc, List.drop_zero]
  · have hlen : l.length ≤ b := by omega
    have h1 : l.drop b = [] := List.drop_eq_nil_of_le hlen
    rw [h1, List.drop_nil]

/-- Slices of a delimiter-free text are delimiter-free. -/
theorem BFree_seg {text : List Char} (h : BFree text) (a b : Nat) : BFree (seg text a b) := by
  intro c hc
  exact h c (List.mem_of_mem_take (List.mem_of_mem_drop hc))

/-- Suffixes of a delimiter-free text are delimiter-free. -/
theorem BFree_drop {text : List Char} (h : BFree text) (a : Nat) : BFree (text.drop a) := by
  intro c hc
  exact h c (List.mem_of_mem_drop hc)

/-- The next splice position stays within bounds. -/
theorem hsOf_bounds (text : List Char) (tags : List (Entity Char × List Char)) {pos : Nat}
    (hch : ChainE text.length pos (tags.map Prod.fst)) (hpos : pos ≤ text.length) :
    pos ≤ hsOf text tags ∧ hsOf text tags ≤ text.length := by
  cases tags with
  | nil => exact ⟨hpos, le_refl _⟩
  | cons t rest =>
    rcases hch with ⟨h1, h2, h3, _⟩
    refine ⟨h1, ?_⟩
    show t.1.start ≤ text.length
    omega

/-- The reverse-order splice loop of Redact produces exactly the rendered
mixed decomposition. -/
theorem splice_foldr (text : List Char) : ∀ (tags : List (Entity Char × List Char)),
    ChainE text.length 0 (tags.map Prod.fst) →
    List.foldr (fun t buf => spliceStep buf t.1.start t.1.stop t.2) text tags =
      renderMix (mixOf text tags 0) := by
  intro tags
  induction tags with
  | nil =>
    intro _
    show text = renderMix [Piece.gap (text.drop 0)]
    simp [renderMix, Piece.renderS]
  | cons t rest ih =>
    intro hch
    rcases hch with ⟨_, h2, h3, h4⟩
    have hch0 : ChainE text.length 0 (rest.map Prod.fst) := ChainE_mono h4 (Nat.zero_le _)
    have hhs := hsOf_bounds text rest h4 h3
    show spliceStep (List.foldr _ text rest) t.1.start t.1.stop t.2 = _
    rw [ih hch0, mixOf_eq text rest 0]
    have hseg0 : seg text 0 (hsOf text rest) = text.take (hsOf text rest) := by
      unfold seg
      rw [List.drop_zero]
    rw [renderMix_cons, hseg0]
    set T := renderMix (tailMix text rest) with hT
    set sr := hsOf text rest with hsr
    have hlentake : (text.take sr).length = sr := by
      rw [List.length_take]
      omega
    unfold spliceStep
    show (text.take sr ++ T).take t.1.start ++ t.2 ++ (text.take sr ++ T).drop t.1.stop =
      renderMix (mixOf text (t :: rest) 0)
    have htake : (text.take sr ++ T).take t.1.start = text.take t.1.start := by
      rw [List.take_append_eq_append_take, hlentake,
        Nat.sub_eq_zero_of_le (by omega), List.take_zero, List.append_nil,
        List.take_take, Nat.min_def]
      rw [if_pos (by omega : t.1.start ≤ sr)]
    have hdrop : (text.take sr ++ T).drop t.1.stop = seg text t.1.stop sr ++ T := by
      rw [List.drop_append_eq_append_drop, hlentake,
        Nat.sub_eq_zero_of_le (by omega), List.drop_zero]
      rfl
    rw [htake, hdrop]
    show _ = renderMix (Piece.gap (seg text 0 t.1.start) :: Piece.tok t.2 t.1.text ::
      mixOf text rest t.1.stop)
    rw [renderMix_cons, renderMix_cons, mixOf_eq text rest t.1.stop, renderMix_cons]
    show text.take t.1.start ++ t.2 ++ (seg text t.1.stop sr ++ T) =
      seg text 0 t.1.start ++ (t.2 ++ (seg text t.1.stop sr ++ T))
    have hseg0' : seg text 0 t.1.start = text.take t.1.start := by
      unfold seg
      rw [List.drop_zero]
    rw [hseg0', List.append_assoc]

/-- Rendering the originals of the decomposition restores the text from the
cursor on. -/
theorem renderOrig_mixOf (text : List Char) : ∀ (tags : List (Entity Char × List Char)) (pos : Nat),
    ChainE text.length pos (tags.map Prod.fst) →
    (∀ tag ∈ tags, tag.1.text = seg text tag.1.start tag.1.stop) →
    renderOrig (mixOf text tags pos) = text.drop pos := by
  intro tags
  induction tags with
  | nil =>
    intro pos _ _
    show renderOrig [Piece.gap (text.drop pos)] = _
    simp [renderOrig, Piece.renderO]
  | cons t rest ih =>
    intro pos hch hval
    rcases hch with ⟨h1, h2, h3, h4⟩
    show renderOrig (Piece.gap (seg text pos t.1.start) :: Piece.tok t.2 t.1.text ::
      mixOf text rest t.1.stop) = _
    rw [renderOrig_cons, renderOrig_cons,
      ih t.1.stop h4 (fun tag htag => hval tag (List.mem_cons_of_mem t htag))]
    show seg text pos t.1.start ++ (t.1.text ++ text.drop t.1.stop) = _
    rw [hval t (List.mem_cons_self t rest)]
    unfold seg
    rw [seg_glue text t.1.start t.1.stop (by omega),
      seg_glue text pos t.1.start (by omega)]

/-- The decomposition is made of well-formed pieces. -/
theorem mixOf_OK {text : List Char} (htext : BFree text) :
    ∀ (tags : List (Entity Char × List Char)) (pos : Nat),
    (∀ tag ∈ tags, WFTok tag.2 ∧ BFree tag.1.text) →
    ∀ p ∈ mixOf text tags pos, PieceOK p := by
  intro tags
  induction tags with
  | nil =>
    intro pos _ p hp
    rcases List.mem_singleton.mp hp with rfl
    exact BFree_drop htext pos
  | cons t rest ih =>
    intro pos htags p hp
    rcases List.mem_cons.mp hp with rfl | hp
    · exact BFree_seg htext pos t.1.start
    · rcases List.mem_cons.mp hp with rfl | hp
      · exact htags t (List.mem_cons_self t rest)
      · exact ih t.1.stop (fun tag htag => htags tag (List.mem_cons_of_mem t htag)) p hp

/-- Every token piece of the decomposition names one of the tags. -/
theorem mixOf_toks {text : List Char} : ∀ {tags : List (Entity Char × List Char)} {pos : Nat}
    {t orig : List Char}, Piece.tok t orig ∈ mixOf text tags pos →
    ∃ tag ∈ tags, tag.2 = t ∧ tag.1.text = orig := by
  intro tags
  induction tags with
  | nil =>
    intro pos t orig hp
    rcases List.mem_singleton.mp hp with h
    cases h
  | cons tg rest ih =>
    intro pos t orig hp
    rcases List.mem_cons.mp hp with h | hp
    · cases h
    · rcases List.mem_cons.mp hp with h | hp
      · rcases Piece.tok.injEq .. ▸ h with ⟨h1, h2⟩
        exact ⟨tg, List.mem_cons_self tg rest, h1.symm, h2.symm⟩
      · rcases ih hp with ⟨tag, htag, h1, h2⟩
        exact ⟨tag, List.mem_cons_of_mem tg htag, h1, h2⟩

/-- The splice/mapping pair fold of Redact splits into its two components,
the mapping side being a straight map. -/
theorem redact_fold_split : ∀ (l : List (Entity Char × List Char)) (b : List Char)
    (d : List Mapping),
    l.foldl (fun (acc : List Char × List Mapping) t =>
      (spliceStep acc.1 t.1.start t.1.stop t.2,
        acc.2 ++ [(⟨t.2, t.1.text, t.1.type⟩ : Mapping)])) (b, d) =
    (l.foldl (fun buf t => spliceStep buf t.1.start t.1.stop t.2) b,
     d ++ l.map (fun t => (⟨t.2, t.1.text, t.1.type⟩ : Mapping))) := by
  intro l
  induction l with
  | nil =>
    intro b d
    simp
  | cons t l ih =>
    intro b d
    show l.foldl _ (spliceStep b t.1.start t.1.stop t.2, d ++ [_]) = _
    rw [ih]
    simp

/-- Deduplicated mappings come from the raw list. -/
theorem dedupMappings_mem : ∀ {l : List Mapping} {seen : List (List Char)} {m : Mapping},
    m ∈ dedupMappings l seen → m ∈ l := by
  intro l
  induction l with
  | nil =>
    intro seen m h
    cases h
  | cons m0 l ih =>
    intro seen m h
    unfold dedupMappings at h
    by_cases hc : m0.token ∈ seen
    · rw [if_pos hc] at h
      exact List.mem_cons_of_mem _ (ih h)
    · rw [if_neg hc] at h
      rcases List.mem_cons.mp h with rfl | h
      · exact List.mem_cons_self _ _
      · exact List.mem_cons_of_mem _ (ih h)

/-- Every unseen token present in the raw list survives deduplication. -/
theorem dedupMappings_covers : ∀ (l : List Mapping) (seen : List (List Char))
    (t : List Char), (∃ m ∈ l, m.token = t) → t ∉ seen →
    ∃ m ∈ dedupMappings l seen, m.token = t := by
  intro l
  induction l with
  | nil =>
    intro seen t hex _
    rcases hex with ⟨m, hm, _⟩
    cases hm
  | cons m0 l ih =>
    intro seen t hex hts
    unfold dedupMappings
    by_cases hc : m0.token ∈ seen
    · rw [if_pos hc]
      rcases hex with ⟨m, hm, htok⟩
      rcases List.mem_cons.mp hm with rfl | hm
      · exact absurd (htok ▸ hc) hts
      · exact ih seen t ⟨m, hm, htok⟩ hts
    · rw [if_neg hc]
      by_cases hmt : m0.token = t
      · exact ⟨m0, List.mem_cons_self _ _, hmt⟩
      · rcases hex with ⟨m, hm, htok⟩
        rcases List.mem_cons.mp hm with rfl | hm
        · exact absurd htok hmt
        · rcases ih (m0.token :: seen) t ⟨m, hm, htok⟩ (by
            intro hmem
            rcases List.mem_cons.mp hmem with h | h
            · exact hmt h.symm
            · exact hts h) with ⟨m2, hm2, htok2⟩
          exact ⟨m2, List.mem_cons_of_mem _ hm2, htok2⟩

/-- Restore is the fold over the length-sorted mapping list, also when the
list is empty. -/
theorem restore_eq (text : List Char) (ms : List Mapping) :
    restore text ms = (List.insertionSort mapLenGE ms).foldl
      (fun t m => replaceAll t m.token m.original) text := by
  unfold restore
  by_cases h : ms = []
  · subst h
    rw [if_pos rfl]
    rfl
  · rw [if_neg h]

/-- Span disjointness is symmetric. -/
theorem spansDisjoint_symm {a b : Entity α} (h : SpansDisjoint a b) : SpansDisjoint b a := by
  unfold SpansDisjoint at *
  rw [min_comm, max_comm]
  exact h

/-- Tags with the same token carry the same text. -/
theorem tags_tok_functional {tags : List (Entity Char × List Char)}
    (hpw : tags.Pairwise (fun p q => p.1.text = q.1.text ↔ p.2 = q.2))
    {p q : Entity Char × List Char} (hp : p ∈ tags) (hq : q ∈ tags) (he : p.2 = q.2) :
    p.1.text = q.1.text := by
  by_cases hpq : p = q
  · rw [hpq]
  · refine (hpw.forall ?_ hp hq hpq).2 he
    intro a b hab
    exact ⟨fun h => (hab.1 h.symm).symm, fun h => (hab.2 h.symm).symm⟩

/-- Reversed folding of the splice step is the right fold. -/
theorem splice_foldl_rev (text : List Char) (tags : List (Entity Char × List Char)) :
    tags.reverse.foldl (fun buf t => spliceStep buf t.1.start t.1.stop t.2) text =
      List.foldr (fun t buf => spliceStep buf t.1.start t.1.stop t.2) text tags := by
  rw [List.foldl_reverse]

/-- Claim C1 (amended): Redact followed by Restore reproduces the input for
every candidate set satisfying the offset invariant with mutually disjoint
spans, provided the text and the entity types carry no token delimiter
characters `[`/`]` (see `c1_counterexample` for why the proviso is needed). -/
theorem redact_restore_round_trip (text : List Char) (entities : List (Entity Char))
    (hval : ∀ e ∈ entities,
      e.start < e.stop ∧ e.stop ≤ text.length ∧ e.text = seg text e.start e.stop)
    (hdisj : entities.Pairwise SpansDisjoint)
    (htext : BFree text)
    (htype : ∀ e ∈ entities, BFree e.type) :
    restore (redact text entities).sanitizedText (redact text entities).mappings = text := by
  by_cases hents : entities = []
  · subst hents
    simp [redact, restore]
  · -- Transfer the hypotheses across the defensive start sort.
    have hperm : (List.insertionSort startLE entities).Perm entities :=
      List.perm_insertionSort startLE entities
    have hsorted : (List.insertionSort startLE entities).Pairwise startLE :=
      List.sorted_insertionSort startLE entities
    set sorted := List.insertionSort startLE entities with hsorted_def
    have hval' : ∀ e ∈ sorted,
        e.start < e.stop ∧ e.stop ≤ text.length ∧ e.text = seg text e.start e.stop :=
      fun e he => hval e (hperm.mem_iff.mp he)
    have htype' : ∀ e ∈ sorted, BFree e.type :=
      fun e he => htype e (hperm.mem_iff.mp he)
    have hdisj' : sorted.Pairwise SpansDisjoint :=
      hdisj.perm hperm.symm (fun h => spansDisjoint_symm h)
    have hchain : ChainE text.length 0 sorted :=
      chain_build sorted text.length 0 hsorted hdisj'
        (fun e he => ⟨(hval' e he).1, (hval' e he).2.1⟩) (fun e _ => Nat.zero_le _)
    set tags := (assignTokens ⟨[], []⟩ sorted).1 with htags_def
    have hfst : tags.map Prod.fst = sorted := assign_fst sorted ⟨[], []⟩
    have hchainT : ChainE text.length 0 (tags.map Prod.fst) := by
      rw [hfst]
      exact hchain
    have hWF : ∀ pair ∈ tags, WFTok pair.2 :=
      (assign_WF sorted (fun p hp => absurd hp (List.not_mem_nil p)) htype').1
    have hpw := assign_pairwise sorted cinv_init
    have htagmem : ∀ tag ∈ tags, tag.1 ∈ sorted := by
      intro tag htag
      rw [← hfst]
      exact List.mem_map_of_mem Prod.fst htag
    have htagval : ∀ tag ∈ tags, tag.1.text = seg text tag.1.start tag.1.stop :=
      fun tag htag => (hval' _ (htagmem tag htag)).2.2
    have htagBF : ∀ tag ∈ tags, BFree tag.1.text := by
      intro tag htag
      rw [htagval tag htag]
      exact BFree_seg htext _ _
    -- Unfold Redact into the rendered decomposition plus the mapping table.
    have hredact : redact text entities =
        ⟨text, renderMix (mixOf text tags 0), entities,
         dedupMappings (tags.reverse.map
           (fun t => (⟨t.2, t.1.text, t.1.type⟩ : Mapping))) []⟩ := by
      simp only [redact, if_neg hents]
      rw [← hsorted_def, ← htags_def, redact_fold_split, splice_foldl_rev,
        splice_foldr text tags hchainT]
      simp
    rw [hredact]
    show restore (renderMix (mixOf text tags 0)) (dedupMappings _ []) = text
    set raw := tags.reverse.map (fun t => (⟨t.2, t.1.text, t.1.type⟩ : Mapping)) with hraw_def
    set ms := dedupMappings raw [] with hms_def
    have hraw_mem : ∀ m ∈ raw, ∃ tag ∈ tags, m = ⟨tag.2, tag.1.text, tag.1.type⟩ := by
      intro m hm
      rcases List.mem_map.mp hm with ⟨tag, htag, rfl⟩
      exact ⟨tag, List.mem_reverse.mp htag, rfl⟩
    rw [restore_eq]
    set ms2 := List.insertionSort mapLenGE ms with hms2_def
    have hpermM : ms2.Perm ms := List.perm_insertionSort mapLenGE ms
    have hms2_raw : ∀ m ∈ ms2, ∃ tag ∈ tags, m = ⟨tag.2, tag.1.text, tag.1.type⟩ :=
      fun m hm => hraw_mem m (dedupMappings_mem (hpermM.mem_iff.mp hm))
    have hmsOK : ∀ m ∈ ms2, WFTok m.token ∧ BFree m.original := by
      intro m hm
      rcases hms2_raw m hm with ⟨tag, htag, rfl⟩
      exact ⟨hWF tag htag, htagBF tag htag⟩
    have hpsOK : ∀ p ∈ mixOf text tags 0, PieceOK p :=
      mixOf_OK htext tags 0 (fun tag htag => ⟨hWF tag htag, htagBF tag htag⟩)
    rw [foldRepl_mix ms2 (mixOf text tags 0) hpsOK hmsOK]
    have hcov : ∀ t orig, Piece.tok t orig ∈ mixOf text tags 0 →
        (∃ m ∈ ms2, m.token = t) ∧ (∀ m ∈ ms2, m.token = t → m.original = orig) := by
      intro t orig hmem
      rcases mixOf_toks hmem with ⟨tag, htag, htok, htxt⟩
      constructor
      · have hexraw : ∃ m ∈ raw, m.token = t := by
          refine ⟨⟨tag.2, tag.1.text, tag.1.type⟩, ?_, htok⟩
          rw [hraw_def]
          exact List.mem_map_of_mem _ (List.mem_reverse.mpr htag)
        rcases dedupMappings_covers raw [] t hexraw (List.not_mem_nil t) with ⟨m, hm, hmt⟩
        exact ⟨m, hpermM.mem_iff.mpr hm, hmt⟩
      · intro m hm hmt
        rcases hms2_raw m hm with ⟨tag2, htag2, rfl⟩
        show tag2.1.text = orig
        rw [← htxt]
        exact tags_tok_functional hpw htag2 htag (hmt.trans htok.symm)
    rw [applyMaps_complete ms2 (mixOf text tags 0) hcov,
      renderOrig_mixOf text tags 0 hchainT htagval, List.drop_zero]

/-- A text that already contains a token-shaped substring. -/
def c1Text : List Char := "[PERSON_1] Bob".toList

/-- Its single, perfectly valid candidate. -/
def c1Ents : List (Entity Char) :=
  [⟨11, 14, "PERSON".toList, "Bob".toList, 1, "regex".toList⟩]

/-- Claim C1, counterexample to the claim as stated: the candidate set is
derived from the text (offset invariant holds, spans disjoint), yet the
round trip returns "Bob Bob" instead of the original, because the literal
`[PERSON_1]` in the untouched text collides with the assigned token. -/
theorem c1_counterexample :
    (∀ e ∈ c1Ents,
      e.start < e.stop ∧ e.stop ≤ c1Text.length ∧ e.text = seg c1Text e.start e.stop) ∧
    c1Ents.Pairwise SpansDisjoint ∧
    restore (redact c1Text c1Ents).sanitizedText (redact c1Text c1Ents).mappings ≠
      c1Text := by
  decide

/-- A delimiter-free document with one candidate. -/
def c1WText : List Char := "Call Thomas Schmidt tomorrow.".toList

/-- The candidate spanning "Thomas Schmidt". -/
def c1WEnts : List (Entity Char) :=
  [⟨5, 19, "PERSON".toList, "Thomas Schmidt".toList, 1, "regex".toList⟩]

/-- Claim C1, witness: all hypotheses of the amended round-trip theorem
hold concretely and the round trip restores the document. -/
theorem c1_witness :
    (∀ e ∈ c1WEnts,
      e.start < e.stop ∧ e.stop ≤ c1WText.length ∧ e.text = seg c1WText e.start e.stop) ∧
    c1WEnts.Pairwise SpansDisjoint ∧ BFree c1WText ∧ (∀ e ∈ c1WEnts, BFree e.type) ∧
    restore (redact c1WText c1WEnts).sanitizedText (redact c1WText c1WEnts).mappings =
      c1WText :=
  ⟨by decide, by decide, by decide, by decide,
   redact_restore_round_trip c1WText c1WEnts (by decide) (by decide) (by decide) (by decide)⟩

/-- A buffer with no `[` has no last-open index. -/
theorem lastOpenIdx_none_iff {l : List Char} : lastOpenIdx l = none ↔ '[' ∉ l := by
  induction l with
  | nil => simp [lastOpenIdx]
  | cons c rest ih =>
    unfold lastOpenIdx
    cases hro : lastOpenIdx rest with
    | some j =>
      simp only
      constructor
      · intro h
        cases h
      · intro h
        exact absurd (ih.mpr (fun hm => h (List.mem_cons_of_mem c hm))) (by simp [hro])
    | none =>
      by_cases hc : c = '['
      · simp only [if_pos hc]
        constructor
        · intro h
          cases h
        · intro h
          exact absurd (hc ▸ List.mem_cons_self c rest) h
      · simp only [if_neg hc]
        constructor
        · intro _ hm
          rcases List.mem_cons.mp hm with rfl | hm
          · exact hc rfl
          · exact (ih.mp hro) hm
        · intro _
          trivial

/-- The last-open index names the final `[` of the buffer. -/
theorem lastOpenIdx_split : ∀ {l : List Char} {i : Nat}, lastOpenIdx l = some i →
    ∃ pre post, l = pre ++ '[' :: post ∧ pre.length = i ∧ '[' ∉ post := by
  intro l
  induction l with
  | nil =>
    intro i h
    cases h
  | cons c rest ih =>
    intro i h
    unfold lastOpenIdx at h
    cases hro : lastOpenIdx rest with
    | some j =>
      rw [hro] at h
      simp only [Option.some_inj] at h
      rcases ih hro with ⟨pre, post, hsp, hlen, hpost⟩
      exact ⟨c :: pre, post, by rw [hsp]; rfl, by simp [hlen, ← h], hpost⟩
    | none =>
      rw [hro] at h
      by_cases hc : c = '['
      · rw [if_pos hc] at h
        simp only [Option.some_inj] at h
        subst hc
        exact ⟨[], rest, rfl, h, lastOpenIdx_none_iff.mp hro⟩
      · rw [if_neg hc] at h
        cases h

/-- The last-open index shifts over a prepended buffer. -/
theorem lastOpenIdx_append_some : ∀ (v : List Char) {w : List Char} {i : Nat},
    lastOpenIdx w = some i → lastOpenIdx (v ++ w) = some (v.length + i) := by
  intro v
  induction v with
  | nil =>
    intro w i h
    simpa using h
  | cons c v ih =>
    intro w i h
    show lastOpenIdx (c :: (v ++ w)) = _
    unfold lastOpenIdx
    rw [ih h]
    simp only [Option.some_inj, List.length_cons]
    omega

/-- A buffer whose every dangling `[` is in fact closed. -/
def ClosedBuf (X : List Char) : Prop :=
  ∀ i, lastOpenIdx X = some i → ']' ∈ X.drop i

/-- Closure transfers to the right part of any split. -/
theorem closedBuf_right {v w : List Char} (h : ClosedBuf (v ++ w)) : ClosedBuf w := by
  intro i hi
  have h2 := h (v.length + i) (lastOpenIdx_append_some v hi)
  rwa [List.drop_append] at h2

/-- Process when the buffer holds no `[` at all: emit everything. -/
theorem srProcess_none (st : SRState) (chunk : List Char)
    (hl : lastOpenIdx (st.buffer ++ chunk) = none) :
    srProcess st chunk = (replaceMappings st (st.buffer ++ chunk), ⟨st.mappings, []⟩) := by
  unfold srProcess
  simp only [hl]

/-- Process when the last `[` is already closed: emit everything. -/
theorem srProcess_closed (st : SRState) (chunk : List Char) {i : Nat}
    (hl : lastOpenIdx (st.buffer ++ chunk) = some i)
    (hcl : ']' ∈ (st.buffer ++ chunk).drop i) :
    srProcess st chunk = (replaceMappings st (st.buffer ++ chunk), ⟨st.mappings, []⟩) := by
  unfold srProcess
  simp only [hl]
  rw [if_pos hcl]

/-- Process when the last `[` dangles: emit the prefix, keep the tail. -/
theorem srProcess_open (st : SRState) (chunk : List Char) {i : Nat}
    (hl : lastOpenIdx (st.buffer ++ chunk) = some i)
    (hncl : ']' ∉ (st.buffer ++ chunk).drop i) :
    srProcess st chunk = (replaceMappings st ((st.buffer ++ chunk).take i),
      ⟨st.mappings, (st.buffer ++ chunk).drop i⟩) := by
  unfold srProcess
  simp only [hl]
  rw [if_neg hncl]

/-- A cut of a well-formed mixed text right before a `[` falls on a piece
boundary (possibly splitting a gap): both sides are again mixed texts. -/
theorem mix_split_at_open : ∀ (ps : List Piece) {X Y : List Char},
    (∀ p ∈ ps, PieceOK p) → renderMix ps = X ++ '[' :: Y →
    ∃ psA psB, (∀ p ∈ psA, PieceOK p) ∧ (∀ p ∈ psB, PieceOK p) ∧
      renderMix psA = X ∧ renderMix psB = '[' :: Y := by
  intro ps
  induction ps with
  | nil =>
    intro X Y _ h
    rcases List.append_eq_nil.mp h.symm with ⟨_, h2⟩
    cases h2
  | cons p ps ih =>
    intro X Y hok h
    have hokp := hok p (List.mem_cons_self p ps)
    have hoks : ∀ q ∈ ps, PieceOK q := fun q hq => hok q (List.mem_cons_of_mem p hq)
    rw [renderMix_cons] at h
    cases p with
    | gap g =>
      simp only [Piece.renderS] at h
      rcases List.append_eq_append_iff.mp h with ⟨w, hc, hb⟩ | ⟨w, ha, hd⟩
      · rcases ih hoks hb with ⟨psA, psB, h1, h2, h3, h4⟩
        refine ⟨Piece.gap g :: psA, psB, ?_, h2, ?_, h4⟩
        · intro q hq
          rcases List.mem_cons.mp hq with rfl | hq
          · exact hokp
          · exact h1 q hq
        · rw [renderMix_cons, h3, hc]
          rfl
      · cases w with
        | nil =>
          rw [List.append_nil] at ha
          refine ⟨[Piece.gap g], ps, ?_, hoks, ?_, ?_⟩
          · intro q hq
            rcases List.mem_singleton.mp hq with rfl
            exact hokp
          · rw [renderMix_cons, renderMix_nil, List.append_nil, ha]
            rfl
          · simpa using hd.symm
        | cons wc w =>
          exfalso
          have hwc : wc = '[' := (List.cons_eq_cons.mp hd.symm).1
          have hmem : wc ∈ g := by
            rw [ha]
            exact List.mem_append_right X (List.mem_cons_self wc w)
          exact (hokp wc hmem).1 hwc
    | tok u orig =>
      simp only [Piece.renderS] at h
      obtain ⟨hWFu, hBFo⟩ := hokp
      rcases List.append_eq_append_iff.mp h with ⟨w, hc, hb⟩ | ⟨w, ha, hd⟩
      · rcases ih hoks hb with ⟨psA, psB, h1, h2, h3, h4⟩
        refine ⟨Piece.tok u orig :: psA, psB, ?_, h2, ?_, h4⟩
        · intro q hq
          rcases List.mem_cons.mp hq with rfl | hq
          · exact ⟨hWFu, hBFo⟩
          · exact h1 q hq
        · rw [renderMix_cons, h3, hc]
          rfl
      · cases w with
        | nil =>
          rw [List.append_nil] at ha
          refine ⟨[Piece.tok u orig], ps, ?_, hoks, ?_, ?_⟩
          · intro q hq
            rcases List.mem_singleton.mp hq with rfl
            exact ⟨hWFu, hBFo⟩
          · rw [renderMix_cons, renderMix_nil, List.append_nil, ha]
            rfl
          · simpa using hd.symm
        | cons wc w =>
          cases X with
          | nil =>
            refine ⟨[], Piece.tok u orig :: ps, fun q hq => absurd hq (List.not_mem_nil q),
              hok, rfl, ?_⟩
            rw [renderMix_cons]
            simpa using h
          | cons xc X =>
            exfalso
            rcases hWFu with ⟨mu, hu, hmu⟩
            rw [hu] at ha
            have ha2 : '[' :: (mu ++ [']']) = xc :: (X ++ wc :: w) := by
              simpa [List.cons_append] using ha
            have h1 := List.cons_eq_cons.mp ha2
            have hwc : wc = '[' := (List.cons_eq_cons.mp hd.symm).1
            have hmem : '[' ∈ mu ++ [']'] := by
              rw [h1.2, ← hwc]
              exact List.mem_append_right X (List.mem_cons_self wc w)
            rcases List.mem_append.mp hmem with hm | hm
            · exact (hmu '[' hm).1 rfl
            · rcases List.mem_singleton.mp hm with hm
              cases hm

/-- Prefixes relative to an append equation stay inside the left part. -/
theorem prefix_chars {X' rest mu : List Char} (h : X' ++ rest = mu ++ [']'])
    (hlen : X'.length ≤ mu.length) : ∀ c ∈ X', c ∈ mu := by
  intro c hc
  have h3 : X' = List.take X'.length (mu ++ [']']) := by
    rw [← h, List.take_left]
  rw [h3, List.take_append_eq_append_take, Nat.sub_eq_zero_of_le hlen, List.take_zero,
    List.append_nil] at hc
  exact List.mem_of_mem_take hc

/-- A cut of a well-formed mixed text whose left side has no dangling `[`
falls on a piece boundary (possibly splitting a gap). -/
theorem mix_split_closed : ∀ (ps : List Piece) {X Y : List Char},
    (∀ p ∈ ps, PieceOK p) → renderMix ps = X ++ Y → ClosedBuf X →
    ∃ psA psB, (∀ p ∈ psA, PieceOK p) ∧ (∀ p ∈ psB, PieceOK p) ∧
      renderMix psA = X ∧ renderMix psB = Y := by
  intro ps
  induction ps with
  | nil =>
    intro X Y _ h _
    rcases List.append_eq_nil.mp h.symm with ⟨h1, h2⟩
    exact ⟨[], [], fun q hq => absurd hq (List.not_mem_nil q),
      fun q hq => absurd hq (List.not_mem_nil q), by rw [h1]; rfl, by rw [h2]; rfl⟩
  | cons p ps ih =>
    intro X Y hok h hcb
    have hokp := hok p (List.mem_cons_self p ps)
    have hoks : ∀ q ∈ ps, PieceOK q := fun q hq => hok q (List.mem_cons_of_mem p hq)
    rw [renderMix_cons] at h
    cases p with
    | gap g =>
      simp only [Piece.renderS] at h
      rcases List.append_eq_append_iff.mp h with ⟨w, hc, hb⟩ | ⟨w, ha, hd⟩
      · have hcb2 : ClosedBuf w := by
          rw [hc] at hcb
          exact closedBuf_right hcb
        rcases ih hoks hb hcb2 with ⟨psA, psB, h1, h2, h3, h4⟩
        refine ⟨Piece.gap g :: psA, psB, ?_, h2, ?_, h4⟩
        · intro q hq
          rcases List.mem_cons.mp hq with rfl | hq
          · exact hokp
          · exact h1 q hq
        · rw [renderMix_cons, h3, hc]
          rfl
      · refine ⟨[Piece.gap X], Piece.gap w :: ps, ?_, ?_, ?_, ?_⟩
        · intro q hq
          rcases List.mem_singleton.mp hq with rfl
          intro c hc
          exact hokp c (by rw [ha]; exact List.mem_append_left w hc)
        · intro q hq
          rcases List.mem_cons.mp hq with rfl | hq
          · intro c hc
            exact hokp c (by rw [ha]; exact List.mem_append_right X hc)
          · exact hoks q hq
        · rw [renderMix_cons, renderMix_nil, List.append_nil]
          rfl
        · rw [renderMix_cons, hd]
          rfl
    | tok u orig =>
      simp only [Piece.renderS] at h
      obtain ⟨hWFu, hBFo⟩ := hokp
      rcases List.append_eq_append_iff.mp h with ⟨w, hc, hb⟩ | ⟨w, ha, hd⟩
      · have hcb2 : ClosedBuf w := by
          rw [hc] at hcb
          exact closedBuf_right hcb
        rcases ih hoks hb hcb2 with ⟨psA, psB, h1, h2, h3, h4⟩
        refine ⟨Piece.tok u orig :: psA, psB, ?_, h2, ?_, h4⟩
        · intro q hq
          rcases List.mem_cons.mp hq with rfl | hq
          · exact ⟨hWFu, hBFo⟩
          · exact h1 q hq
        · rw [renderMix_cons, h3, hc]
          rfl
      · cases w with
        | nil =>
          rw [List.append_nil] at ha
          refine ⟨[Piece.tok u orig], ps, ?_, hoks, ?_, ?_⟩
          · intro q hq
            rcases List.mem_singleton.mp hq with rfl
            exact ⟨hWFu, hBFo⟩
          · rw [renderMix_cons, renderMix_nil, List.append_nil, ha]
            rfl
          · simpa using hd.symm
        | cons wc w =>
          cases X with
          | nil =>
            refine ⟨[], Piece.tok u orig :: ps, fun q hq => absurd hq (List.not_mem_nil q),
              hok, rfl, ?_⟩
            rw [renderMix_cons]
            simpa using h
          | cons xc X =>
            exfalso
            rcases hWFu with ⟨mu, hu, hmu⟩
            rw [hu] at ha
            have ha2 : '[' :: (mu ++ [']']) = xc :: (X ++ wc :: w) := by
              simpa [List.cons_append] using ha
            have h1 := List.cons_eq_cons.mp ha2
            have hlen : X.length ≤ mu.length := by
              have := congrArg List.length h1.2
              simp at this
              omega
            have hXmu : ∀ c ∈ X, c ∈ mu := prefix_chars h1.2.symm hlen
            have hXopen : '[' ∉ X := fun hm => (hmu '[' (hXmu '[' hm)).1 rfl
            have hXclose : ']' ∉ X := fun hm => (hmu ']' (hXmu ']' hm)).2 rfl
            have hlast : lastOpenIdx (xc :: X) = some 0 := by
              unfold lastOpenIdx
              rw [lastOpenIdx_none_iff.mpr hXopen, ← h1.1]
              rfl
            have hcl := hcb 0 hlast
            rw [List.drop_zero] at hcl
            rcases List.mem_cons.mp hcl with hm | hm
            · rw [← h1.1] at hm
              cases hm
            · exact hXclose hm

/-- Mapping application distributes over concatenated piece lists. -/
theorem applyMaps_append (ms : List Mapping) (ps qs : List Piece) :
    applyMaps ms (ps ++ qs) = applyMaps ms ps ++ applyMaps ms qs := by
  rw [applyMaps_map, applyMaps_map, applyMaps_map, List.map_append]

/-- A sequential ReplaceAll pass distributes over a piece-aligned split. -/
theorem replaceML_split (ms : List Mapping)
    (hms : ∀ m ∈ ms, WFTok m.token ∧ BFree m.original)
    {psA psB : List Piece} (hA : ∀ p ∈ psA, PieceOK p) (hB : ∀ p ∈ psB, PieceOK p) :
    ms.foldl (fun t m => replaceAll t m.token m.original) (renderMix psA ++ renderMix psB) =
      ms.foldl (fun t m => replaceAll t m.token m.original) (renderMix psA) ++
      ms.foldl (fun t m => replaceAll t m.token m.original) (renderMix psB) := by
  have hAB : ∀ p ∈ psA ++ psB, PieceOK p := by
    intro p hp
    rcases List.mem_append.mp hp with hp | hp
    · exact hA p hp
    · exact hB p hp
  rw [← renderMix_append, foldRepl_mix ms (psA ++ psB) hAB hms, applyMaps_append,
    renderMix_append, foldRepl_mix ms psA hA hms, foldRepl_mix ms psB hB hms]

/-- The stream run over any chunking of a well-formed mixed text equals the
one-shot sequential ReplaceAll over the whole text: the buffering never cuts
a token, and nothing is lost or duplicated. -/
theorem srRun_mix (ms : List Mapping)
    (hms : ∀ m ∈ ms, WFTok m.token ∧ BFree m.original) :
    ∀ (cs : List (List Char)) (b : List Char) (ps : List Piece),
    (∀ p ∈ ps, PieceOK p) → b ++ cs.flatten = renderMix ps →
    srRun ⟨ms, b⟩ cs =
      ms.foldl (fun t m => replaceAll t m.token m.original) (renderMix ps) := by
  intro cs
  induction cs with
  | nil =>
    intro b ps hok heq
    show replaceMappings ⟨ms, b⟩ b = _
    unfold replaceMappings
    simp only [List.flatten_nil, List.append_nil] at heq
    rw [heq]
  | cons c cs ih =>
    intro b ps hok hcs
    have hbc : renderMix ps = (b ++ c) ++ cs.flatten := by
      rw [← hcs, List.flatten_cons, List.append_assoc]
    show (srProcess ⟨ms, b⟩ c).1 ++ srRun (srProcess ⟨ms, b⟩ c).2 cs = _
    cases hl : lastOpenIdx (b ++ c) with
    | none =>
      have hcb : ClosedBuf (b ++ c) := by
        intro j hj
        rw [hl] at hj
        cases hj
      rcases mix_split_closed ps hok hbc hcb with ⟨psA, psB, h1, h2, h3, h4⟩
      rw [srProcess_none ⟨ms, b⟩ c hl]
      show replaceMappings ⟨ms, b⟩ (b ++ c) ++ srRun ⟨ms, []⟩ cs = _
      rw [ih [] psB h2 (by rw [List.nil_append]; exact h4.symm)]
      unfold replaceMappings
      show ms.foldl _ (b ++ c) ++ ms.foldl _ (renderMix psB) = _
      rw [← h3,
        show renderMix ps = renderMix psA ++ renderMix psB from by rw [h3, h4]; exact hbc]
      exact (replaceML_split ms hms h1 h2).symm
    | some i =>
      by_cases hcl : ']' ∈ (b ++ c).drop i
      · have hcb : ClosedBuf (b ++ c) := by
          intro j hj
          rw [hl] at hj
          rw [← Option.some_inj.mp hj]
          exact hcl
        rcases mix_split_closed ps hok hbc hcb with ⟨psA, psB, h1, h2, h3, h4⟩
        rw [srProcess_closed ⟨ms, b⟩ c hl hcl]
        show replaceMappings ⟨ms, b⟩ (b ++ c) ++ srRun ⟨ms, []⟩ cs = _
        rw [ih [] psB h2 (by rw [List.nil_append]; exact h4.symm)]
        unfold replaceMappings
        show ms.foldl _ (b ++ c) ++ ms.foldl _ (renderMix psB) = _
        rw [← h3,
          show renderMix ps = renderMix psA ++ renderMix psB from by rw [h3, h4]; exact hbc]
        exact (replaceML_split ms hms h1 h2).symm
      · rcases lastOpenIdx_split hl with ⟨pre, post, hsplit, hlen, _⟩
        have htake : (b ++ c).take i = pre := by
          rw [hsplit, ← hlen, List.take_left]
        have hdrop : (b ++ c).drop i = '[' :: post := by
          rw [hsplit, ← hlen, List.drop_left]
        have hmix : renderMix ps = pre ++ '[' :: (post ++ cs.flatten) := by
          rw [hbc, hsplit]
          simp [List.append_assoc]
        rcases mix_split_at_open ps hok hmix with ⟨psA, psB, h1, h2, h3, h4⟩
        rw [srProcess_open ⟨ms, b⟩ c hl hcl]
        show replaceMappings ⟨ms, b⟩ ((b ++ c).take i) ++
          srRun ⟨ms, (b ++ c).drop i⟩ cs = _
        rw [htake, hdrop]
        rw [ih ('[' :: post) psB h2 (by rw [h4]; simp)]
        unfold replaceMappings
        show ms.foldl _ pre ++ ms.foldl _ (renderMix psB) = _
        rw [← h3,
          show renderMix ps = renderMix psA ++ renderMix psB from by rw [h3, h4]; exact hmix]
        exact (replaceML_split ms hms h1 h2).symm

/-- Claim C2 (amended): for the tokenized text and mapping table produced by
Redact (on delimiter-free text and types, with a valid disjoint candidate
set), feeding any contiguous chunking of the tokenized text through
StreamRestorer.Process calls followed by one Flush emits exactly the output
of the one-shot Restore — no byte is lost or duplicated.  For arbitrary
mapping tables the equivalence fails, see `c2_counterexample`. -/
theorem stream_restore_equiv (text : List Char) (entities : List (Entity Char))
    (hval : ∀ e ∈ entities,
      e.start < e.stop ∧ e.stop ≤ text.length ∧ e.text = seg text e.start e.stop)
    (hdisj : entities.Pairwise SpansDisjoint)
    (htext : BFree text)
    (htype : ∀ e ∈ entities, BFree e.type)
    (cs : List (List Char))
    (hcs : cs.flatten = (redact text entities).sanitizedText) :
    srRun (newStreamRestorer (redact text entities).mappings) cs =
      restore (redact text entities).sanitizedText (redact text entities).mappings := by
  by_cases hents : entities = []
  · subst hents
    have hsan : (redact text []).sanitizedText = text := by simp [redact]
    have hmap : (redact text []).mappings = [] := by simp [redact]
    rw [hsan] at hcs
    rw [hsan, hmap]
    have hrm : renderMix [Piece.gap text] = text := by
      simp [renderMix, Piece.renderS]
    have h2 := srRun_mix [] (fun m hm => absurd hm (List.not_mem_nil m)) cs []
      [Piece.gap text]
      (by
        intro p hp
        rcases List.mem_singleton.mp hp with rfl
        exact htext)
      (by rw [List.nil_append, hrm, hcs])
    rw [hrm] at h2
    show srRun ⟨[], []⟩ cs = _
    rw [h2, restore_eq]
    rfl
  · have hperm : (List.insertionSort startLE entities).Perm entities :=
      List.perm_insertionSort startLE entities
    have hsorted : (List.insertionSort startLE entities).Pairwise startLE :=
      List.sorted_insertionSort startLE entities
    set sorted := List.insertionSort startLE entities with hsorted_def
    have hval' : ∀ e ∈ sorted,
        e.start < e.stop ∧ e.stop ≤ text.length ∧ e.text = seg text e.start e.stop :=
      fun e he => hval e (hperm.mem_iff.mp he)
    have htype' : ∀ e ∈ sorted, BFree e.type :=
      fun e he => htype e (hperm.mem_iff.mp he)
    have hdisj' : sorted.Pairwise SpansDisjoint :=
      hdisj.perm hperm.symm (fun h => spansDisjoint_symm h)
    have hchain : ChainE text.length 0 sorted :=
      chain_build sorted text.length 0 hsorted hdisj'
        (fun e he => ⟨(hval' e he).1, (hval' e he).2.1⟩) (fun e _ => Nat.zero_le _)
    set tags := (assignTokens ⟨[], []⟩ sorted).1 with htags_def
    have hfst : tags.map Prod.fst = sorted := assign_fst sorted ⟨[], []⟩
    have hchainT : ChainE text.length 0 (tags.map Prod.fst) := by
      rw [hfst]
      exact hchain
    have hWF : ∀ pair ∈ tags, WFTok pair.2 :=
      (assign_WF sorted (fun p hp => absurd hp (List.not_mem_nil p)) htype').1
    have htagmem : ∀ tag ∈ tags, tag.1 ∈ sorted := by
      intro tag htag
      rw [← hfst]
      exact List.mem_map_of_mem Prod.fst htag
    have htagBF : ∀ tag ∈ tags, BFree tag.1.text := by
      intro tag htag
      rw [(hval' _ (htagmem tag htag)).2.2]
      exact BFree_seg htext _ _
    have hredact : redact text entities =
        ⟨text, renderMix (mixOf text tags 0), entities,
         dedupMappings (tags.reverse.map
           (fun t => (⟨t.2, t.1.text, t.1.type⟩ : Mapping))) []⟩ := by
      simp only [redact, if_neg hents]
      rw [← hsorted_def, ← htags_def, redact_fold_split, splice_foldl_rev,
        splice_foldr text tags hchainT]
      simp
    rw [hredact] at hcs ⊢
    show srRun (newStreamRestorer (dedupMappings _ [])) cs =
      restore (renderMix (mixOf text tags 0)) (dedupMappings _ [])
    set raw := tags.reverse.map (fun t => (⟨t.2, t.1.text, t.1.type⟩ : Mapping)) with hraw_def
    set ms := dedupMappings raw [] with hms_def
    set ms2 := List.insertionSort mapLenGE ms with hms2_def
    have hpermM : ms2.Perm ms := List.perm_insertionSort mapLenGE ms
    have hraw_mem : ∀ m ∈ raw, ∃ tag ∈ tags, m = ⟨tag.2, tag.1.text, tag.1.type⟩ := by
      intro m hm
      rcases List.mem_map.mp hm with ⟨tag, htag, rfl⟩
      exact ⟨tag, List.mem_reverse.mp htag, rfl⟩
    have hmsOK : ∀ m ∈ ms2, WFTok m.token ∧ BFree m.original := by
      intro m hm
      rcases hraw_mem m (dedupMappings_mem (hpermM.mem_iff.mp hm)) with ⟨tag, htag, rfl⟩
      exact ⟨hWF tag htag, htagBF tag htag⟩
    have hpsOK : ∀ p ∈ mixOf text tags 0, PieceOK p :=
      mixOf_OK htext tags 0 (fun tag htag => ⟨hWF tag htag, htagBF tag htag⟩)
    have hnew : newStreamRestorer ms = ⟨ms2, []⟩ := rfl
    rw [hnew, restore_eq, ← hms2_def]
    exact srRun_mix ms2 hmsOK cs [] (mixOf text tags 0) hpsOK
      (by rw [List.nil_append]; exact hcs)

/-- An arbitrary mapping whose token carries no delimiters. -/
def c2M : Mapping := ⟨"ab".toList, "X".toList, "T".toList⟩

/-- Claim C2, counterexample to the claim as stated: for an arbitrary
mapping list, chunking defeats the delimiter-based buffering — streaming
the tokenized text "ab" as "a"+"b" emits "ab", while the one-shot Restore
yields "X". -/
theorem c2_counterexample :
    srRun (newStreamRestorer [c2M]) ["a".toList, "b".toList] = "ab".toList ∧
    restore (["a".toList, "b".toList] : List (List Char)).flatten [c2M] = "X".toList ∧
    srRun (newStreamRestorer [c2M]) ["a".toList, "b".toList] ≠
      restore (["a".toList, "b".toList] : List (List Char)).flatten [c2M] := by
  decide

/-- The spec's streaming example document. -/
def c2Text : List Char := "Hello Alice, how are you?".toList

/-- Its single PERSON candidate. -/
def c2Ents : List (Entity Char) :=
  [⟨6, 11, "PERSON".toList, "Alice".toList, 1, "regex".toList⟩]

/-- The spec's chunking, splitting the token `[PERSON_1]` in the middle. -/
def c2Chunks : List (List Char) := ["Hello [PER".toList, "SON_1], how are you?".toList]

/-- Claim C2, witness: all hypotheses of the amended streaming-equivalence
theorem hold on the spec's example, whose chunking cuts a token in half. -/
theorem c2_witness :
    (∀ e ∈ c2Ents,
      e.start < e.stop ∧ e.stop ≤ c2Text.length ∧ e.text = seg c2Text e.start e.stop) ∧
    c2Ents.Pairwise SpansDisjoint ∧ BFree c2Text ∧ (∀ e ∈ c2Ents, BFree e.type) ∧
    c2Chunks.flatten = (redact c2Text c2Ents).sanitizedText ∧
    srRun (newStreamRestorer (redact c2Text c2Ents).mappings) c2Chunks =
      restore (redact c2Text c2Ents).sanitizedText (redact c2Text c2Ents).mappings :=
  ⟨by decide, by decide, by decide, by decide, by decide,
   stream_restore_equiv c2Text c2Ents (by decide) (by decide) (by decide) (by decide)
     c2Chunks (by decide)⟩
